import Mathlib

/-!
# httpgo: the call driver, its interceptor chain and its transport resolution

A shallow embedding of `client.go`, `middlewares.go`, `request.go` and
`response.go`.

* Go structs become Lean structures with the same field names.
* `time.Duration` (an `int64` count of nanoseconds) is an `Int`; a `time.Time`
  is the `Int` of nanoseconds since the zero `Time`, and the readings of the
  clock are inputs.
* `int8` values are `Int`s kept in `[-128, 127]` by `wrapInt8`.
* A Go `error` is identified with its message; the runtime errors of slice
  indexing and nil dereference are errors of their own.
* A func value is represented by the closure that was built (which function
  literal, with its captured variables), together with a function that calls it.
* A panic is an explicit result of running code; `defer` and `recover` are
  modelled by `errRecover` and `Client.Do`.
* Functions of the Go standard library (`net/http`, `net/url`) are parameters,
  collected in `World`.
-/

namespace Httpgo

/-! ## Basic types -/

/-- A `time.Duration`: a signed count of nanoseconds. -/
abbrev Duration := Int

/-- A Go `error` value: one identified with its message, or one of the two
errors the Go runtime raises in this package (both implement `error`). -/
inductive GoError where
  | msg (text : String)
  | indexOutOfRange (index : Int) (length : Nat)
  | nilDereference
  deriving DecidableEq, Repr

/-- The Go builtin `len` on a string: the number of bytes. -/
def goLen (s : String) : Nat := s.utf8ByteSize

/-- A `context.Context` handle: the background one, or one made by the caller. -/
inductive GoContext where
  | background
  | user (id : Nat)
  deriving DecidableEq, Repr

/-- An `http.Header` or `url.Values`: keys with their value lists. -/
abbrev Values := List (String × List String)

/-- A `url.URL`, as far as this package looks into it. -/
structure URL where
  Scheme : String
  Host : String
  Path : String
  RawQuery : String
  deriving DecidableEq, Repr

/-- An `http.Request`: the native outbound request. -/
structure HttpRequest where
  Method : String
  URL : Option URL
  Header : Values
  ctx : GoContext
  Body : Option (List UInt8)
  deriving DecidableEq, Repr

/-- An `http.Response`, with the state of its body stream. -/
structure HttpResponse where
  StatusCode : Nat
  BodyClosed : Bool
  deriving DecidableEq, Repr

/-! ## request.go -/

/-- RuntimeOption of `request.go`. -/
structure RuntimeOption where
  Timeout : Duration
  Proxy : String
  NoProxy : Bool
  IgnoreSSL : Bool
  deriving DecidableEq, Repr

/-- Request of `request.go`. `Header` and `Query` are Go maps; they are listed
in the order in which a `range` loop visits them. -/
structure Request where
  Method : String
  Header : Values
  Uri : String
  Query : List (String × String)
  Body : Option (List UInt8)
  Context : Option GoContext
  RuntimeOption : RuntimeOption
  deriving DecidableEq, Repr

/-! ## Panics and interceptor bodies -/

/-- The value given to `panic`: an `error`, or any other value, kept as its
`%v` formatting. -/
inductive PanicValue where
  | error (e : GoError)
  | other (formatted : String)
  deriving DecidableEq, Repr

/-- What one run of an interceptor does, as far as the chain executor can see:
it runs code of its own, calls `c.Next()`, or panics. A run of an interceptor
that returns, and that lets a panic raised below it pass, is such a sequence,
whatever it computes in between; an interceptor that recovers panics itself or
assigns the fields of the context is described by `Act` further down. -/
inductive Stmt where
  | mark (tag : Nat)
  | next
  | fault (v : PanicValue)
  deriving DecidableEq, Repr

/-- A `Handler` of `middlewares.go` written by the caller. -/
abbrev Handler := List Stmt

/-! ## The transport -/

/-- The `Proxy` field of an `http.Transport`: nil, one of the two function
literals of `transProxy` with the string it captured, or
`http.ProxyFromEnvironment`. -/
inductive ProxyFunc where
  | nil
  | fixed (rawurl : String)
  | fromEnvironment
  deriving DecidableEq, Repr

/-- An `http.Transport` as `transRuntimeOption` fills it in. Durations are in
nanoseconds. -/
structure Transport where
  Proxy : ProxyFunc
  DialTimeout : Duration
  DialKeepAlive : Duration
  MaxIdleConns : Nat
  IdleConnTimeout : Duration
  TLSHandshakeTimeout : Duration
  ExpectContinueTimeout : Duration
  InsecureSkipVerify : Bool
  deriving DecidableEq, Repr

/-- An `http.Client`. -/
structure HttpClient where
  Transport : Option Transport
  Timeout : Duration
  deriving DecidableEq, Repr

/-- Client of `client.go`. -/
structure Client where
  BaseUrl : String
  UserAgent : String
  Timeout : Duration
  Proxy : String
  NoProxy : Bool
  IgnoreSSL : Bool
  Handlers : List Handler
  client : HttpClient
  deriving DecidableEq, Repr

/-- The constant `time.Second`. -/
def second : Duration := 1000000000

/-- The results `(*url.URL, error)` of a proxy function. -/
abbrev ProxyResult := Except GoError (Option URL)

/-- Calling a proxy function on a request. `parse` is `url.Parse` and `env` is
`http.ProxyFromEnvironment`; a nil function cannot be called, the transport
then connects directly. -/
def ProxyFunc.call (parse : String → ProxyResult) (env : HttpRequest → ProxyResult) :
    ProxyFunc → Option (HttpRequest → ProxyResult)
  | .nil => none
  | .fixed rawurl => some (fun _ => parse rawurl)
  | .fromEnvironment => some env

/-- The transport uses no proxy: its proxy function is nil. -/
def ProxyFunc.UsesNoProxy (p : ProxyFunc) : Prop :=
  ∀ parse env, p.call parse env = none

/-- The transport uses the fixed URL `rawurl` as proxy, for every request. -/
def ProxyFunc.UsesFixed (p : ProxyFunc) (rawurl : String) : Prop :=
  ∀ parse env, ∃ f, p.call parse env = some f ∧ ∀ r, f r = parse rawurl

/-- The transport uses the proxy resolver derived from the environment. -/
def ProxyFunc.UsesEnvironment (p : ProxyFunc) : Prop :=
  ∀ parse env, p.call parse env = some env

/-- transProxy of `client.go`. -/
def transProxy (c : Client) (option : RuntimeOption) : ProxyFunc :=
  if option.NoProxy then .nil
  else if goLen option.Proxy > 0 then .fixed option.Proxy
  else if c.NoProxy then .nil
  else if goLen c.Proxy > 0 then .fixed c.Proxy
  else .fromEnvironment

/-- transRuntimeOption of `client.go`. `c` is passed by value, so the writes to
`c.client` change the copy whose address is returned. -/
def transRuntimeOption (c : Client) (option : RuntimeOption) : HttpClient :=
  let ignoreSSL := if option.IgnoreSSL then true else c.IgnoreSSL
  let tr : Transport :=
    { Proxy := transProxy c option
      DialTimeout := 30 * second
      DialKeepAlive := 30 * second
      MaxIdleConns := 100
      IdleConnTimeout := 90 * second
      TLSHandshakeTimeout := 10 * second
      ExpectContinueTimeout := 1 * second
      InsecureSkipVerify := ignoreSSL }
  let client : HttpClient := { c.client with Transport := some tr }
  let client : HttpClient :=
    if c.Timeout > 0 then { client with Timeout := c.Timeout } else client
  let client : HttpClient :=
    if option.Timeout > 0 then { client with Timeout := option.Timeout } else client
  client

/-! ## response.go -/

/-- Trace of `response.go`. -/
structure Trace where
  DNS : Duration
  TLSHandshake : Duration
  Connect : Duration
  Download : Duration
  Total : Duration
  deriving DecidableEq, Repr

/-- Response of `response.go`. -/
structure Response where
  Body : List UInt8
  Request : Option Request
  HttpRequest : Option HttpRequest
  HttpResponse : Option HttpResponse
  Trace : Option Trace
  deriving DecidableEq, Repr

/-! ## The standard library, as parameters -/

/-- What `client.Do(ctx.HttpRequest)` of `net/http` does, with what reading the
body of its response then gives: it panics, or it returns an error (with a
response only when a redirect was refused), or it returns a response whose body
`ioutil.ReadAll` reads into `data`, with or without an error. -/
inductive RoundTrip where
  | panics (v : PanicValue)
  | fails (resp : Option HttpResponse) (e : GoError)
  | responds (resp : HttpResponse) (data : List UInt8) (readErr : Option GoError)
  deriving DecidableEq, Repr

/-- The functions of the Go runtime and standard library this package calls. -/
structure World where
  /-- The constant `runtime.GOOS`. -/
  GOOS : String
  /-- The result of `runtime.Version()`. -/
  goVersion : String
  /-- The function `http.NewRequestWithContext(ctx, method, url, body)`. -/
  newRequestWithContext :
    GoContext → String → String → Option (List UInt8) → Except GoError HttpRequest
  /-- The key under which `http.Header.Set` stores a value. -/
  canonicalHeaderKey : String → String
  /-- The method `(*url.URL).Query`. -/
  urlQuery : URL → Values
  /-- The function `url.QueryEscape`. -/
  queryEscape : String → String
  /-- The method `(*url.URL).String`. -/
  urlString : URL → String
  /-- The method `(*url.URL).Parse`; `none` is the nil URL it returns with an error. -/
  urlParse : URL → String → Option URL
  /-- The method `(*http.Client).Do` followed by the read of the response body. -/
  clientDo : HttpClient → HttpRequest → RoundTrip

/-! ## middlewares.go: the execution context -/

/-- A value of type `Handler` in `Context.handlers`: a handler of the caller, or
the function literal `Client.Do` appends, with the `client` it captured. -/
inductive HandlerFn where
  | user (body : Handler)
  | terminal (client : HttpClient)
  deriving DecidableEq, Repr

/-- Context of `middlewares.go`. `index` is an `int8`. -/
structure Context where
  Request : Request
  Response : Response
  HttpRequest : Option HttpRequest
  HttpResponse : Option HttpResponse
  handlers : List HandlerFn
  index : Int
  deriving DecidableEq, Repr

/-- What a run of `Client.Do` leaves to be observed, in order. -/
inductive Event where
  /-- The call `handlers[i](ctx)` started. -/
  | enter (i : Nat)
  /-- The code `mark tag` of `handlers[i]` ran. -/
  | code (i : Nat) (tag : Nat)
  /-- The terminal step called `client.Do`. -/
  | roundTrip
  /-- The terminal step called `ioutil.ReadAll` on the response body. -/
  | readAll
  /-- The terminal step called `Close` on the response body. -/
  | closeBody
  deriving DecidableEq, Repr

/-- The state of one run of `Client.Do`: the `Context` it allocated, its named
result `err` (which the terminal step captured), and two records kept for the
statements below: the events so far, and every value `ctx.index` has held,
oldest first. -/
structure CallState where
  ctx : Context
  err : Option GoError
  events : List Event
  cursor : List Int
  deriving DecidableEq, Repr

/-- The result of running a piece of Go code on a `CallState`. `outOfFuel` is
not a behaviour of the code: `Context.Next` below carries a bound on the
nesting of calls, and `outOfFuel` says the bound was too small. -/
inductive Exec where
  | done (s : CallState)
  | panicked (v : PanicValue) (s : CallState)
  | outOfFuel
  deriving DecidableEq, Repr

/-- Conversion of an `int` to `int8`: the low 8 bits, read as two's complement. -/
def wrapInt8 (x : Int) : Int := (x + 128) % 256 - 128

/-- Adds an event to the record. -/
def CallState.emit (s : CallState) (e : Event) : CallState :=
  { s with events := s.events ++ [e] }

/-- The statement `c.index++` on an `int8`. -/
def CallState.incIndex (s : CallState) : CallState :=
  let v := wrapInt8 (s.ctx.index + 1)
  { s with ctx := { s.ctx with index := v }, cursor := s.cursor ++ [v] }

/-- The index expression `c.handlers[i]`: `none` when Go panics with an index
out of range. -/
def indexHandlers (handlers : List HandlerFn) (i : Int) : Option HandlerFn :=
  if i < 0 then none else handlers.get? i.toNat

/-- A run of a handler of the caller, being `handlers[self]`; `callNext` is what
`c.Next()` does. -/
def runStmts (self : Nat) (callNext : CallState → Exec) : List Stmt → CallState → Exec
  | [], s => .done s
  | .mark tag :: rest, s => runStmts self callNext rest (s.emit (.code self tag))
  | .next :: rest, s =>
    match callNext s with
    | .done s1 => runStmts self callNext rest s1
    | r => r
  | .fault v :: _, s => .panicked v s

/-- Sets `BodyClosed` on a response. -/
def HttpResponse.close (r : HttpResponse) : HttpResponse := { r with BodyClosed := true }

/-- The function literal `Client.Do` appends to the chain (client.go, lines
103 to 115). `ctx.Response.HttpResponse` and `ctx.HttpResponse` are the same
pointer, so closing the body shows in both. -/
def terminalStep (w : World) (client : HttpClient) (callNext : CallState → Exec)
    (s : CallState) : Exec :=
  let s := s.emit .roundTrip
  match s.ctx.HttpRequest with
  | none => .panicked (.error .nilDereference) s
  | some httpReq =>
    match w.clientDo client httpReq with
    | .panics v => .panicked v s
    | .fails resp e =>
      let response : Response :=
        { s.ctx.Response with
          HttpResponse := resp, Request := some s.ctx.Request, HttpRequest := s.ctx.HttpRequest }
      callNext { s with ctx := { s.ctx with Response := response, HttpResponse := resp },
                        err := some e }
    | .responds resp data readErr =>
      let s := s.emit .readAll
      match readErr with
      | some e =>
        let response : Response :=
          { s.ctx.Response with
            HttpResponse := some resp, Request := some s.ctx.Request,
            HttpRequest := s.ctx.HttpRequest, Body := data }
        callNext { s with ctx := { s.ctx with Response := response, HttpResponse := some resp },
                          err := some e }
      | none =>
        let s := s.emit .closeBody
        let response : Response :=
          { s.ctx.Response with
            HttpResponse := some resp.close, Request := some s.ctx.Request,
            HttpRequest := s.ctx.HttpRequest, Body := data }
        callNext { s with ctx := { s.ctx with Response := response,
                                              HttpResponse := some resp.close },
                          err := none }

/-- The call `handlers[self](c)`. -/
def callHandler (w : World) (callNext : CallState → Exec) (self : Nat) :
    HandlerFn → CallState → Exec
  | .user body, s => runStmts self callNext body (s.emit (.enter self))
  | .terminal client, s => terminalStep w client callNext (s.emit (.enter self))

/-- Next of `middlewares.go`. The first argument bounds how deep calls of
`Next` may nest inside one another; `Client.Do` passes `chainDepth`. -/
def Context.Next (w : World) : Nat → CallState → Exec
  | 0, _ => .outOfFuel
  | fuel + 1, s =>
    let s := s.incIndex
    if wrapInt8 s.ctx.handlers.length > s.ctx.index then
      match indexHandlers s.ctx.handlers s.ctx.index with
      | none =>
        .panicked (.error (.indexOutOfRange s.ctx.index s.ctx.handlers.length)) s
      | some h =>
        match callHandler w (Context.Next w fuel) s.ctx.index.toNat h s with
        | .done s1 => .done s1.incIndex
        | r => r
    else .done s

/-! ## client.go: the call driver -/

/-- The function `strings.TrimRight(s, "/")`. -/
def trimRightSlash (s : String) : String :=
  String.mk (s.data.reverse.dropWhile (fun ch => ch == '/')).reverse

/-- The function `strings.TrimLeft(s, "/")`. -/
def trimLeftSlash (s : String) : String :=
  String.mk (s.data.dropWhile (fun ch => ch == '/'))

/-- The assignment `m[key] = []string{value}` on a Go map. -/
def Values.assign (m : Values) (key value : String) : Values :=
  if m.any (fun kv => kv.1 == key) then
    m.map (fun kv => if kv.1 == key then (key, [value]) else kv)
  else m ++ [(key, [value])]

/-- The method `url.Values.Encode`: the keys in ascending order, every value of
a key as `key=value` with both escaped, joined with the ampersand. -/
def Values.Encode (escape : String → String) (m : Values) : String :=
  let sorted := m.insertionSort (fun a b => a.1 ≤ b.1)
  let parts := sorted.flatMap (fun kv => kv.2.map (fun v => escape kv.1 ++ "=" ++ escape v))
  String.intercalate "&" parts

/-- The overlay of `transQuery` (client.go, lines 160 to 162): every pair of
the map `Request.Query`, in the order of the `range` loop, is set on the
existing values. -/
def overlayQuery (existing : Values) (query : List (String × String)) : Values :=
  query.foldl (fun q kv => Values.assign q kv.1 kv.2) existing

/-- errRecover of `client.go`, given whether the goroutine is panicking. It is
the deferred function itself, so its call of `recover` returns the panic value
and stops the panic: the second component is the panic still in flight when
`errRecover` returns, which is none. The first component is the error that
`errRecover` returns. -/
def errRecover (panicking : Option PanicValue) : Option GoError × Option PanicValue :=
  match panicking with
  | none => (none, none)
  | some (.error er) => (some er, none)
  | some (.other formatted) => (some (.msg formatted), none)

/-- transHandlers of `client.go`. -/
def transHandlers (ctx : Context) (c : Client) : Context :=
  c.Handlers.foldl (fun ctx handler => { ctx with handlers := ctx.handlers ++ [.user handler] }) ctx

/-- transRequest of `client.go`. -/
def transRequest (req : Request) : Request :=
  match req.Context with
  | none => { req with Context := some .background }
  | some _ => req

/-- transHeader of `client.go`. -/
def transHeader (w : World) (req : Request) (newReq : HttpRequest) (c : Client) : HttpRequest :=
  let header := req.Header.foldl
    (fun h kv => kv.2.foldl (fun h v => Values.assign h (w.canonicalHeaderKey kv.1) v) h)
    newReq.Header
  let userAgent :=
    if goLen c.UserAgent > 0 then c.UserAgent
    else "HttpGO " ++ w.GOOS ++ " " ++ w.goVersion
  { newReq with
    Header := Values.assign header (w.canonicalHeaderKey "User-Agent") userAgent }

/-- transQuery of `client.go`. The error of `URL.Parse` is dropped and its URL
result, nil on error, is stored. A nil `newReq.URL` on entry is a nil
dereference. -/
def transQuery (w : World) (req : Request) (newReq : HttpRequest) :
    Except PanicValue HttpRequest :=
  match newReq.URL with
  | none => .error (.error .nilDereference)
  | some u =>
    let newUrl : URL := { Scheme := "", Host := "", Path := u.Path, RawQuery := "" }
    let query := overlayQuery (w.urlQuery u) req.Query
    .ok { newReq with
          URL := w.urlParse u (w.urlString newUrl ++ "?" ++ Values.Encode w.queryEscape query) }

/-- How a call of a Go function with results `(resp *Response, err error)` ends. -/
inductive Outcome where
  | returned (resp : Option Response) (err : Option GoError)
  | panicked (v : PanicValue)
  | outOfFuel
  deriving DecidableEq, Repr

/-- A run of `Client.Do`: how it ended, the panic value its deferred call
recovered (if the body panicked), and the records of `CallState`. -/
structure DoRun where
  result : Outcome
  recovered : Option PanicValue
  events : List Event
  cursor : List Int
  deriving DecidableEq, Repr

/-- The bound on nested `Next` calls that `Client.Do` passes: the number of
`int8` values from 0 to 127. `Client.Do_ne_outOfFuel` shows it is never reached. -/
def chainDepth : Nat := 128

/-- How the lines of `Client.Do` before the chain is run (client.go, lines 89
to 115) end: `failed e` is the `return nil, err` after the native request could
not be built, `faulted v` is a panic, `ready s` is the state in which
`ctx.handlers[0](ctx)` is then called. -/
inductive Prepared where
  | failed (e : GoError)
  | faulted (v : PanicValue)
  | ready (s : CallState)
  deriving DecidableEq, Repr

/-- The URL that `Client.Do` resolves (client.go, line 95). -/
def Client.reqUrl (c : Client) (req : Request) : String :=
  trimRightSlash c.BaseUrl ++ "/" ++ trimLeftSlash req.Uri

/-- The lines of `Client.Do` before the chain is run (client.go, lines 89 to 115). -/
def Client.prepare (w : World) (c : Client) (req : Request) : Prepared :=
  let emptyResponse : Response :=
    { Body := [], Request := none, HttpRequest := none, HttpResponse := none, Trace := none }
  let ctx : Context :=
    { Request := req, Response := emptyResponse, HttpRequest := none, HttpResponse := none,
      handlers := [], index := 0 }
  let ctx := transHandlers ctx c
  let req := transRequest req
  let ctx := { ctx with Request := req }
  let reqUrl := c.reqUrl req
  match w.newRequestWithContext (req.Context.getD .background) req.Method reqUrl req.Body with
  | .error e => .failed e
  | .ok httpReq =>
    let httpReq := transHeader w req httpReq c
    match transQuery w req httpReq with
    | .error v => .faulted v
    | .ok httpReq =>
      let ctx := { ctx with HttpRequest := some httpReq }
      let client := transRuntimeOption c req.RuntimeOption
      let ctx := { ctx with handlers := ctx.handlers ++ [.terminal client] }
      .ready { ctx := ctx, err := none, events := [], cursor := [0] }

/-- The body of `Client.Do` (client.go, lines 89 to 117) without its deferred
call. `finished resp err` is a `return resp, err`; `aborted v resp err` is a
panic with value `v`, at which the named results held `resp` and `err`. -/
inductive DoBody where
  | finished (resp : Option Response) (err : Option GoError) (events : List Event)
      (cursor : List Int)
  | aborted (v : PanicValue) (resp : Option Response) (err : Option GoError)
      (events : List Event) (cursor : List Int)
  | outOfFuel
  deriving DecidableEq, Repr

/-- The body of `Client.Do`: the preparation, then `ctx.handlers[0](ctx)` and
`return ctx.Response, nil`. -/
def Client.doBody (w : World) (c : Client) (req : Request) : DoBody :=
  match c.prepare w req with
  | .failed e => .finished none (some e) [] [0]
  | .faulted v => .aborted v none none [] [0]
  | .ready s =>
    match indexHandlers s.ctx.handlers 0 with
    | none => .aborted (.error (.indexOutOfRange 0 s.ctx.handlers.length)) none s.err [] [0]
    | some h =>
      match callHandler w (Context.Next w chainDepth) 0 h s with
      | .done s1 => .finished (some s1.ctx.Response) none s1.events s1.cursor
      | .panicked v s1 => .aborted v none s1.err s1.events s1.cursor
      | .outOfFuel => .outOfFuel

/-- Do of `client.go`: the body, then the deferred `errRecover()`, whose result
the `defer` statement discards. -/
def Client.Do (w : World) (c : Client) (req : Request) : DoRun :=
  match c.doBody w req with
  | .finished resp err events cursor =>
    { result := .returned resp err, recovered := none, events := events, cursor := cursor }
  | .aborted v resp err events cursor =>
    match (errRecover (some v)).2 with
    | none =>
      { result := .returned resp err, recovered := some v, events := events, cursor := cursor }
    | some v1 =>
      { result := .panicked v1, recovered := none, events := events, cursor := cursor }
  | .outOfFuel => { result := .outOfFuel, recovered := none, events := [], cursor := [] }

/-! ## Interceptors in general

The definitions above describe interceptors that leave the context alone and
let every panic pass. A `Handler` of Go is any `func(c *Context)`: it may call
`c.Next()` inside a function whose deferred call recovers, and it may assign the
exported fields of the context, which are pointers. The definitions of this
section follow the same source lines with such interceptors. -/

/-- What one run of an interceptor does, as far as the chain executor and the
call driver can see. A run that returns or panics is such a sequence; code that
an interceptor defers to the moment a panic passes through it is not described,
and when a handler is entered more than once it does the same each time. -/
inductive Act where
  /-- Code of the interceptor itself. -/
  | mark (tag : Nat)
  /-- The call `c.Next()`; a panic it raises passes through the interceptor. -/
  | next
  /-- The call `c.Next()` inside a function with a deferred `recover()`: a panic
  it raises is stopped there and the interceptor goes on. -/
  | nextRecovered
  /-- The call `panic(v)`. -/
  | fault (v : PanicValue)
  /-- The assignment `c.Request = r`; `none` is nil. -/
  | setRequest (r : Option Request)
  /-- The assignment `c.Response = r`; `none` is nil. -/
  | setResponse (r : Option Response)
  /-- The assignment `c.HttpRequest = r`; `none` is nil. -/
  | setHttpRequest (r : Option HttpRequest)
  /-- The assignment `c.HttpResponse = r`; `none` is nil. -/
  | setHttpResponse (r : Option HttpResponse)
  deriving DecidableEq, Repr

/-- A `Handler` of `middlewares.go`, in general. -/
abbrev Interceptor := List Act

/-- A value of type `Handler` in the chain: an interceptor of the caller, or the
function literal `Client.Do` appends, with the `client` it captured. -/
inductive FullHandlerFn where
  | user (body : Interceptor)
  | terminal (client : HttpClient)
  deriving DecidableEq, Repr

/-- Context of `middlewares.go` with its four exported fields as the pointers
they are; `none` is nil. `index` is an `int8`. -/
structure FullContext where
  Request : Option Request
  Response : Option Response
  HttpRequest : Option HttpRequest
  HttpResponse : Option HttpResponse
  handlers : List FullHandlerFn
  index : Int
  deriving DecidableEq, Repr

/-- The state of one run of `Client.Do`, as `CallState`. -/
structure FullState where
  ctx : FullContext
  err : Option GoError
  events : List Event
  cursor : List Int
  deriving DecidableEq, Repr

/-- The result of running a piece of Go code on a `FullState`. `cut s` is not
an end of the run: the bound on the nesting of `Next` calls was reached in the
state `s`, and the run goes on from there. -/
inductive FullExec where
  | done (s : FullState)
  | panicked (v : PanicValue) (s : FullState)
  | cut (s : FullState)
  deriving DecidableEq, Repr

/-- Adds an event to the record. -/
def FullState.emit (s : FullState) (e : Event) : FullState :=
  { s with events := s.events ++ [e] }

/-- The statement `c.index++` on an `int8`. -/
def FullState.incIndex (s : FullState) : FullState :=
  let v := wrapInt8 (s.ctx.index + 1)
  { s with ctx := { s.ctx with index := v }, cursor := s.cursor ++ [v] }

/-- The index expression `c.handlers[i]`: `none` when Go panics with an index
out of range. -/
def indexFullHandlers (handlers : List FullHandlerFn) (i : Int) : Option FullHandlerFn :=
  if i < 0 then none else handlers.get? i.toNat

/-- A run of an interceptor of the caller, being `handlers[self]`; `callNext` is
what `c.Next()` does. -/
def runActs (self : Nat) (callNext : FullState → FullExec) : List Act → FullState → FullExec
  | [], s => .done s
  | .mark tag :: rest, s => runActs self callNext rest (s.emit (.code self tag))
  | .next :: rest, s =>
    match callNext s with
    | .done s1 => runActs self callNext rest s1
    | r => r
  | .nextRecovered :: rest, s =>
    match callNext s with
    | .done s1 => runActs self callNext rest s1
    | .panicked _ s1 => runActs self callNext rest s1
    | .cut s1 => .cut s1
  | .fault v :: _, s => .panicked v s
  | .setRequest r :: rest, s =>
    runActs self callNext rest { s with ctx := { s.ctx with Request := r } }
  | .setResponse r :: rest, s =>
    runActs self callNext rest { s with ctx := { s.ctx with Response := r } }
  | .setHttpRequest r :: rest, s =>
    runActs self callNext rest { s with ctx := { s.ctx with HttpRequest := r } }
  | .setHttpResponse r :: rest, s =>
    runActs self callNext rest { s with ctx := { s.ctx with HttpResponse := r } }

/-- The function literal `Client.Do` appends to the chain (client.go, lines
103 to 115). A nil `ctx.HttpRequest` makes `client.Do` panic; a nil
`ctx.Response` makes the assignment of line 104 panic, after the call and
before `err` is assigned. -/
def fullTerminalStep (w : World) (client : HttpClient) (callNext : FullState → FullExec)
    (s : FullState) : FullExec :=
  let s := s.emit .roundTrip
  match s.ctx.HttpRequest with
  | none => .panicked (.error .nilDereference) s
  | some httpReq =>
    match w.clientDo client httpReq with
    | .panics v => .panicked v s
    | .fails resp e =>
      match s.ctx.Response with
      | none => .panicked (.error .nilDereference) s
      | some response =>
        let response : Response :=
          { response with
            HttpResponse := resp, Request := s.ctx.Request, HttpRequest := s.ctx.HttpRequest }
        callNext { s with ctx := { s.ctx with Response := some response, HttpResponse := resp },
                          err := some e }
    | .responds resp data readErr =>
      match s.ctx.Response with
      | none => .panicked (.error .nilDereference) s
      | some response =>
        let s := s.emit .readAll
        match readErr with
        | some e =>
          let response : Response :=
            { response with
              HttpResponse := some resp, Request := s.ctx.Request,
              HttpRequest := s.ctx.HttpRequest, Body := data }
          callNext { s with ctx := { s.ctx with Response := some response,
                                                HttpResponse := some resp },
                            err := some e }
        | none =>
          let s := s.emit .closeBody
          let response : Response :=
            { response with
              HttpResponse := some resp.close, Request := s.ctx.Request,
              HttpRequest := s.ctx.HttpRequest, Body := data }
          callNext { s with ctx := { s.ctx with Response := some response,
                                                HttpResponse := some resp.close },
                            err := none }

/-- The call `handlers[self](c)`. -/
def callFullHandler (w : World) (callNext : FullState → FullExec) (self : Nat) :
    FullHandlerFn → FullState → FullExec
  | .user body, s => runActs self callNext body (s.emit (.enter self))
  | .terminal client, s => fullTerminalStep w client callNext (s.emit (.enter self))

/-- Next of `middlewares.go`. The first argument bounds how deep calls of
`Next` may nest inside one another; at the bound the run is cut. -/
def FullContext.Next (w : World) : Nat → FullState → FullExec
  | 0, s => .cut s
  | fuel + 1, s =>
    let s := s.incIndex
    if wrapInt8 s.ctx.handlers.length > s.ctx.index then
      match indexFullHandlers s.ctx.handlers s.ctx.index with
      | none =>
        .panicked (.error (.indexOutOfRange s.ctx.index s.ctx.handlers.length)) s
      | some h =>
        match callFullHandler w (FullContext.Next w fuel) s.ctx.index.toNat h s with
        | .done s1 => .done s1.incIndex
        | r => r
    else .done s

/-- Client of `client.go` with interceptors in general. -/
structure FullClient where
  BaseUrl : String
  UserAgent : String
  Timeout : Duration
  Proxy : String
  NoProxy : Bool
  IgnoreSSL : Bool
  Handlers : List Interceptor
  client : HttpClient
  deriving DecidableEq, Repr

/-- The fields of the client other than `Handlers`, for the functions of
`client.go` that do not read the interceptors. -/
def FullClient.settings (c : FullClient) : Client :=
  { BaseUrl := c.BaseUrl, UserAgent := c.UserAgent, Timeout := c.Timeout, Proxy := c.Proxy,
    NoProxy := c.NoProxy, IgnoreSSL := c.IgnoreSSL, Handlers := [], client := c.client }

/-- transHandlers of `client.go`. -/
def transFullHandlers (ctx : FullContext) (c : FullClient) : FullContext :=
  c.Handlers.foldl (fun ctx handler => { ctx with handlers := ctx.handlers ++ [.user handler] }) ctx

/-- How the lines of `Client.Do` before the chain is run end, as `Prepared`. -/
inductive FullPrepared where
  | failed (e : GoError)
  | faulted (v : PanicValue)
  | ready (s : FullState)
  deriving DecidableEq, Repr

/-- The `Response` that `Client.Do` allocates (client.go, line 91). -/
def Response.empty : Response :=
  { Body := [], Request := none, HttpRequest := none, HttpResponse := none, Trace := none }

/-- The lines of `Client.Do` before the chain is run (client.go, lines 89 to 115). -/
def FullClient.prepare (w : World) (c : FullClient) (req : Request) : FullPrepared :=
  let ctx : FullContext :=
    { Request := some req, Response := some Response.empty, HttpRequest := none,
      HttpResponse := none, handlers := [], index := 0 }
  let ctx := transFullHandlers ctx c
  let req := transRequest req
  let ctx := { ctx with Request := some req }
  let reqUrl := c.settings.reqUrl req
  match w.newRequestWithContext (req.Context.getD .background) req.Method reqUrl req.Body with
  | .error e => .failed e
  | .ok httpReq =>
    let httpReq := transHeader w req httpReq c.settings
    match transQuery w req httpReq with
    | .error v => .faulted v
    | .ok httpReq =>
      let ctx := { ctx with HttpRequest := some httpReq }
      let client := transRuntimeOption c.settings req.RuntimeOption
      let ctx := { ctx with handlers := ctx.handlers ++ [.terminal client] }
      .ready { ctx := ctx, err := none, events := [], cursor := [0] }

/-- Do of `client.go` with interceptors in general, the nesting of `Next` calls
bounded by `depth`: the preparation, `ctx.handlers[0](ctx)` and `return
ctx.Response, nil`, then the deferred `errRecover()`, whose result the `defer`
statement discards. The result `outOfFuel` says that the run was cut at the
bound; the events and the cursor values are then those up to the cut. -/
def FullClient.Do (w : World) (depth : Nat) (c : FullClient) (req : Request) : DoRun :=
  match c.prepare w req with
  | .failed e => { result := .returned none (some e), recovered := none, events := [],
                   cursor := [0] }
  | .faulted v =>
    match (errRecover (some v)).2 with
    | none => { result := .returned none none, recovered := some v, events := [], cursor := [0] }
    | some v1 => { result := .panicked v1, recovered := none, events := [], cursor := [0] }
  | .ready s =>
    match indexFullHandlers s.ctx.handlers 0 with
    | none =>
      { result := .returned none s.err,
        recovered := some (.error (.indexOutOfRange 0 s.ctx.handlers.length)),
        events := s.events, cursor := s.cursor }
    | some h =>
      match callFullHandler w (FullContext.Next w depth) 0 h s with
      | .done s1 =>
        { result := .returned s1.ctx.Response none, recovered := none, events := s1.events,
          cursor := s1.cursor }
      | .panicked v s1 =>
        match (errRecover (some v)).2 with
        | none =>
          { result := .returned none s1.err, recovered := some v, events := s1.events,
            cursor := s1.cursor }
        | some v1 =>
          { result := .panicked v1, recovered := none, events := s1.events,
            cursor := s1.cursor }
      | .cut s1 =>
        { result := .outOfFuel, recovered := none, events := s1.events, cursor := s1.cursor }

/-- The response the interceptor leaves in `c.Response` when it runs to its end
in a chain in which `Next` runs nothing: what its last assignment of
`c.Response` stored, and otherwise what the field held before. -/
def responseLeft (before : Option Response) : List Act → Option Response
  | [] => before
  | .setResponse r :: rest => responseLeft r rest
  | _ :: rest => responseLeft before rest

/-- The events of the code of `handlers[self]` itself, when its run is `body`
and runs to its end. -/
def ownActCode (self : Nat) : List Act → List Event
  | [] => []
  | .mark tag :: rest => .code self tag :: ownActCode self rest
  | _ :: rest => ownActCode self rest

/-- A client with base URL `http://h/` and the given interceptors. -/
def FullClient.plain (hs : List Interceptor) : FullClient :=
  { BaseUrl := "http://h/", UserAgent := "", Timeout := 0, Proxy := "", NoProxy := false,
    IgnoreSSL := false, Handlers := hs, client := { Transport := none, Timeout := 0 } }

/-! ## The two descriptions of interceptors compared -/

/-- A statement of a `Handler` as an `Act`. -/
def Stmt.toAct : Stmt → Act
  | .mark tag => .mark tag
  | .next => .next
  | .fault v => .fault v

/-- A handler of the chain as a `FullHandlerFn`. -/
def HandlerFn.toFull : HandlerFn → FullHandlerFn
  | .user body => .user (body.map Stmt.toAct)
  | .terminal client => .terminal client

/-- A `CallState` as a `FullState`: the pointers of the context are not nil. -/
def CallState.toFull (s : CallState) : FullState :=
  { ctx :=
      { Request := some s.ctx.Request, Response := some s.ctx.Response,
        HttpRequest := s.ctx.HttpRequest, HttpResponse := s.ctx.HttpResponse,
        handlers := s.ctx.handlers.map HandlerFn.toFull, index := s.ctx.index }
    err := s.err, events := s.events, cursor := s.cursor }

/-- A `Client` as a `FullClient`. -/
def Client.toFull (c : Client) : FullClient :=
  { BaseUrl := c.BaseUrl, UserAgent := c.UserAgent, Timeout := c.Timeout, Proxy := c.Proxy,
    NoProxy := c.NoProxy, IgnoreSSL := c.IgnoreSSL,
    Handlers := c.Handlers.map (fun h => h.map Stmt.toAct), client := c.client }

/-- The two results are the same: the same end in the same state, or both cut
at the bound. -/
def Agrees : Exec → FullExec → Prop
  | .done s, .done t => t = s.toFull
  | .panicked v s, .panicked v1 t => v1 = v ∧ t = s.toFull
  | .outOfFuel, .cut _ => True
  | _, _ => False

/-! ## Predicates used in the statements and proofs -/

/-- The events of the code of `handlers[self]` itself, when its run is `body`:
its marks in order, up to a panic. -/
def ownCode (self : Nat) : List Stmt → List Event
  | [] => []
  | .mark tag :: rest => .code self tag :: ownCode self rest
  | .next :: rest => ownCode self rest
  | .fault _ :: _ => []

/-- The invariant of a run of the chain `hs`, at a point enclosed by `k` calls
of `Next` that ran a handler and have not returned, with `fuel` left for
nested calls: the cursor is an `int8`; if it is not negative, at most that many
calls enclose the point and the fuel covers the values up to 127; if it has
wrapped, the increments still owed by the enclosing calls leave it below -1. -/
def ChainSafe (hs : List HandlerFn) (fuel : Nat) (k : Nat) (s : CallState) : Prop :=
  s.ctx.handlers = hs ∧ 1 ≤ fuel ∧ -128 ≤ s.ctx.index ∧ s.ctx.index ≤ 127 ∧
  (wrapInt8 hs.length ≤ 0 ∨
   (0 ≤ s.ctx.index ∧ (k : Int) ≤ s.ctx.index ∧ k ≤ 126 ∧ 128 - s.ctx.index ≤ fuel) ∨
   (s.ctx.index < 0 ∧ s.ctx.index + k ≤ -2))

/-- The result of a piece of the run keeps the invariant and is not out of fuel. -/
def ExecSafe (hs : List HandlerFn) (fuel : Nat) (k : Nat) : Exec → Prop
  | .done s => ChainSafe hs fuel k s
  | .panicked _ _ => True
  | .outOfFuel => False

/-- An interceptor that runs the code `pre`, calls `Next` once, and runs the
code `post`. -/
def onionHandler (layer : List Nat × List Nat) : Handler :=
  layer.1.map .mark ++ [.next] ++ layer.2.map .mark

/-- What the terminal step records after its entry. -/
def RoundTrip.events : RoundTrip → List Event
  | .panics _ => [.roundTrip]
  | .fails _ _ => [.roundTrip]
  | .responds _ _ (some _) => [.roundTrip, .readAll]
  | .responds _ _ none => [.roundTrip, .readAll, .closeBody]

/-- The order of the onion model for the layers from index `i` on: entry and
first code of each layer in turn, the terminal step, then the second code of
each layer, innermost first. -/
def onionEvents (rt : RoundTrip) : Nat → List (List Nat × List Nat) → List Event
  | i, [] => .enter i :: rt.events
  | i, layer :: rest =>
    .enter i :: layer.1.map (.code i) ++ onionEvents rt (i + 1) rest ++ layer.2.map (.code i)

/-- The indices of the handlers entered, in the order of their entry. -/
def entered (events : List Event) : List Nat :=
  events.filterMap (fun e => match e with
    | .enter i => some i
    | _ => none)

/-- An index entered earlier is compatible with the cursor: it is 0, or the
chain length is positive as an `int8` and the index is at most the cursor, or
the cursor has wrapped. -/
def EnteredBelow (hs : List HandlerFn) (cursor : Int) (i : Nat) : Prop :=
  i = 0 ∨ (1 ≤ wrapInt8 hs.length ∧ ((0 ≤ cursor ∧ (i : Int) ≤ cursor) ∨ cursor < 0))

/-- The handlers entered so far were entered in strictly increasing order of
index, and each index is compatible with the cursor. -/
def ChainOrdered (hs : List HandlerFn) (s : CallState) : Prop :=
  (entered s.events).Pairwise (· < ·) ∧
    ∀ i ∈ entered s.events, EnteredBelow hs s.ctx.index i

/-- The result of a piece of the run keeps the order of entry. -/
def ExecOrdered (hs : List HandlerFn) : Exec → Prop
  | .done s => ChainOrdered hs s
  | .panicked _ s => (entered s.events).Pairwise (· < ·)
  | .outOfFuel => True

/-! ## middlewares.go: TraceMiddleware -/

/-- A `time.Time`, as the nanoseconds since the zero `Time` (January 1 of the
year 1, UTC); the zero value of the type is 0. Wall clock and monotonic clock
are taken to agree. -/
abbrev Time := Int

/-- The largest `time.Duration`, an `int64`: about 292 years. -/
def maxDuration : Duration := 9223372036854775807

/-- The smallest `time.Duration`. -/
def minDuration : Duration := -9223372036854775808

/-- The method `Time.Sub`: the difference, or the largest or smallest duration
when the difference does not fit. -/
def timeSub (t u : Time) : Duration :=
  if t - u > maxDuration then maxDuration
  else if t - u < minDuration then minDuration
  else t - u

/-- The function `time.Since(t)` when `time.Now()` is `now`. -/
def timeSince (now t : Time) : Duration := timeSub now t

/-- An event of `httptrace.ClientTrace` that `TraceMiddleware` listens to, with
what `time.Now()` returns in its callback. -/
inductive HookEvent where
  | DNSStart (now : Time)
  | DNSDone (now : Time)
  | TLSHandshakeStart (now : Time)
  | TLSHandshakeDone (now : Time)
  | ConnectStart (now : Time)
  | ConnectDone (now : Time)
  | GotFirstResponseByte (now : Time)
  deriving DecidableEq, Repr

/-- The variables of `TraceMiddleware` that its callbacks write: the four
local marks and `c.Response.Trace`. -/
structure TraceState where
  dnsStart : Time
  tlsHandshakeStart : Time
  connectStart : Time
  downloadStart : Time
  trace : Trace
  deriving DecidableEq, Repr

/-- The callback of `TraceMiddleware` for an event (middlewares.go, lines 40 to 49). -/
def TraceState.fire (st : TraceState) : HookEvent → TraceState
  | .DNSStart now => { st with dnsStart := now }
  | .DNSDone now => { st with trace := { st.trace with DNS := timeSince now st.dnsStart } }
  | .TLSHandshakeStart now => { st with tlsHandshakeStart := now }
  | .TLSHandshakeDone now =>
    { st with trace := { st.trace with TLSHandshake := timeSince now st.tlsHandshakeStart } }
  | .ConnectStart now => { st with connectStart := now }
  | .ConnectDone now =>
    { st with trace := { st.trace with Connect := timeSince now st.connectStart } }
  | .GotFirstResponseByte now => { st with downloadStart := now }

/-- TraceMiddleware of `middlewares.go`, for a call in which `c.Next()` returns:
`existing` is `c.Response.Trace` on entry, `startTime` is the first `time.Now()`,
`hooks` are the events that fire during `c.Next()`, in order, and `afterNext`
and `atEnd` are `time.Now()` in the two calls of `time.Since` after it. The
result is `c.Response.Trace` on return. -/
def TraceMiddleware (existing : Option Trace) (startTime : Time) (hooks : List HookEvent)
    (afterNext atEnd : Time) : Trace :=
  let trace : Trace := existing.getD
    { DNS := 0, TLSHandshake := 0, Connect := 0, Download := 0, Total := 0 }
  let st : TraceState :=
    { dnsStart := 0, tlsHandshakeStart := 0, connectStart := 0, downloadStart := 0,
      trace := trace }
  let st := hooks.foldl TraceState.fire st
  { st.trace with
    Download := timeSince afterNext st.downloadStart
    Total := timeSince atEnd startTime }

/-- The nanoseconds from the zero `Time` to November 4, 2026, 00:00 UTC. -/
def sampleNow : Time := 63929347200000000000

/-! ## Sample inputs -/

/-- A character that `net/http` accepts in a method: a token character of HTTP. -/
def isMethodChar (ch : Char) : Bool :=
  ch.isAlphanum ||
    [33, 35, 36, 37, 38, 39, 42, 43, 45, 46, 94, 95, 96, 124, 126].contains ch.toNat

/-- An ASCII control character, which `url.Parse` rejects. -/
def isControlChar (ch : Char) : Bool :=
  ch.toNat < 32 || ch.toNat == 127

/-- A world in which the network call ends as `rt` says. As in Go, a request is
not built when its method has a character that is not a token character or
when its URL has a control character; the other checks of `url.Parse` are left
out. -/
def World.plain (rt : RoundTrip) : World :=
  { GOOS := "linux"
    goVersion := "go1.21"
    newRequestWithContext := fun ctx method url body =>
      if !(method.data.all isMethodChar) then
        .error (.msg ("net/http: invalid method " ++ String.singleton (Char.ofNat 34) ++
          method ++ String.singleton (Char.ofNat 34)))
      else if url.data.any isControlChar then
        .error (.msg "net/url: invalid control character in URL")
      else
        .ok { Method := if method = "" then "GET" else method,
              URL := some { Scheme := "", Host := "", Path := url, RawQuery := "" },
              Header := [], ctx := ctx, Body := body }
    canonicalHeaderKey := fun k => k
    urlQuery := fun _ => []
    queryEscape := fun x => x
    urlString := fun u => u.Path
    urlParse := fun u ref => some { u with RawQuery := ref }
    clientDo := fun _ _ => rt }

/-- A client with base URL `http://h/` and the given interceptors. -/
def Client.plain (hs : List Handler) : Client :=
  { BaseUrl := "http://h/", UserAgent := "", Timeout := 0, Proxy := "", NoProxy := false,
    IgnoreSSL := false, Handlers := hs, client := { Transport := none, Timeout := 0 } }

/-- The zero `RuntimeOption`. -/
def RuntimeOption.zero : RuntimeOption :=
  { Timeout := 0, Proxy := "", NoProxy := false, IgnoreSSL := false }

/-- A request for `/x` with nothing else set. -/
def Request.plain : Request :=
  { Method := "", Header := [], Uri := "/x", Query := [], Body := none, Context := none,
    RuntimeOption := RuntimeOption.zero }

/-- A world like `World.plain` in which the URL of the request already has the
query `existing`, and in which `URL.Parse` takes what follows the first question
mark of the reference as the query. -/
def World.withQuery (existing : Values) : World :=
  { World.plain (.responds ⟨200, false⟩ [] none) with
    urlQuery := fun _ => existing
    urlParse := fun u ref =>
      some { u with
             Path := String.mk (ref.data.takeWhile (fun ch => ch != '?'))
             RawQuery := String.mk ((ref.data.dropWhile (fun ch => ch != '?')).drop 1) } }

/-- A native request for `http://h/x` with no header. -/
def HttpRequest.plain : HttpRequest :=
  { Method := "GET", URL := some { Scheme := "http", Host := "h", Path := "/x", RawQuery := "" },
    Header := [], ctx := .background, Body := none }

/-! ## Transport resolution -/

theorem goLen_pos_iff (s : String) : 0 < goLen s ↔ s ≠ "" := by
  obtain ⟨cs⟩ := s
  cases cs with
  | nil => simp [goLen, String.utf8ByteSize, String.utf8ByteSize.go]
  | cons ch rest =>
    have h := Char.utf8Size_pos ch
    have hne : (String.mk (ch :: rest)) ≠ "" := by
      intro h0
      have := congrArg String.data h0
      simp at this
    simp only [goLen, String.utf8ByteSize, String.utf8ByteSize.go, ne_eq, hne, not_false_eq_true,
      iff_true]
    omega

theorem usesNoProxy_nil : ProxyFunc.nil.UsesNoProxy := fun _ _ => rfl

theorem usesFixed_fixed (u : String) : (ProxyFunc.fixed u).UsesFixed u :=
  fun _ _ => ⟨_, rfl, fun _ => rfl⟩

theorem usesEnvironment_fromEnvironment : ProxyFunc.fromEnvironment.UsesEnvironment :=
  fun _ _ => rfl

/-- C1: `transProxy c o` takes the first rule that applies, in the order: the
override disables the proxy (no proxy); the override names a proxy (that URL,
for every request); the client disables the proxy (no proxy); the client names
a proxy (that URL); otherwise the resolver of the environment. In particular an
override that names a proxy wins over a client that disables it. -/
theorem transProxy_first_match (c : Client) (o : RuntimeOption) :
    (o.NoProxy = true → (transProxy c o).UsesNoProxy) ∧
    (o.NoProxy = false → o.Proxy ≠ "" → (transProxy c o).UsesFixed o.Proxy) ∧
    (o.NoProxy = false → o.Proxy = "" → c.NoProxy = true → (transProxy c o).UsesNoProxy) ∧
    (o.NoProxy = false → o.Proxy = "" → c.NoProxy = false → c.Proxy ≠ "" →
      (transProxy c o).UsesFixed c.Proxy) ∧
    (o.NoProxy = false → o.Proxy = "" → c.NoProxy = false → c.Proxy = "" →
      (transProxy c o).UsesEnvironment) ∧
    (c.NoProxy = true → o.NoProxy = false → o.Proxy ≠ "" →
      (transProxy c o).UsesFixed o.Proxy) := by
  have ho := goLen_pos_iff o.Proxy
  have hc := goLen_pos_iff c.Proxy
  refine ⟨?_, ?_, ?_, ?_, ?_, ?_⟩
  · intro h
    simpa [transProxy, h] using usesNoProxy_nil
  · intro h1 h2
    simpa [transProxy, h1, ho.mpr h2] using usesFixed_fixed o.Proxy
  · intro h1 h2 h3
    have : ¬ 0 < goLen o.Proxy := fun h => ho.mp h h2
    simpa [transProxy, h1, this, h3] using usesNoProxy_nil
  · intro h1 h2 h3 h4
    have : ¬ 0 < goLen o.Proxy := fun h => ho.mp h h2
    simpa [transProxy, h1, this, h3, hc.mpr h4] using usesFixed_fixed c.Proxy
  · intro h1 h2 h3 h4
    have h5 : ¬ 0 < goLen o.Proxy := fun h => ho.mp h h2
    have h6 : ¬ 0 < goLen c.Proxy := fun h => hc.mp h h4
    simpa [transProxy, h1, h5, h3, h6] using usesEnvironment_fromEnvironment
  · intro _ h1 h2
    simpa [transProxy, h1, ho.mpr h2] using usesFixed_fixed o.Proxy

/-- The particular case of C1 at a client that disables the proxy and an
override that names `http://p:1`. -/
theorem transProxy_first_match_witness :
    ({ Client.plain [] with NoProxy := true } : Client).NoProxy = true ∧
    (transProxy { Client.plain [] with NoProxy := true }
      { RuntimeOption.zero with Proxy := "http://p:1" }).UsesFixed "http://p:1" :=
  ⟨rfl, (transProxy_first_match { Client.plain [] with NoProxy := true }
      { RuntimeOption.zero with Proxy := "http://p:1" }).2.2.2.2.2 rfl rfl (by decide)⟩

/-- C9: for a client whose internal http client has no timeout of its own, the
timeout of the http client that `transRuntimeOption` returns is the override's
when that is positive, else the client's when that is positive, else zero. -/
theorem transRuntimeOption_timeout (c : Client) (o : RuntimeOption)
    (h : c.client.Timeout = 0) :
    (transRuntimeOption c o).Timeout =
      if o.Timeout > 0 then o.Timeout else if c.Timeout > 0 then c.Timeout else 0 := by
  unfold transRuntimeOption
  by_cases h1 : o.Timeout > 0 <;> by_cases h2 : c.Timeout > 0 <;> simp [h1, h2, h]

/-- C9 at a client with a timeout of five seconds and an override with a
negative one: five seconds. -/
theorem transRuntimeOption_timeout_witness :
    ({ Client.plain [] with Timeout := 5 * second } : Client).client.Timeout = 0 ∧
    (transRuntimeOption { Client.plain [] with Timeout := 5 * second }
      { RuntimeOption.zero with Timeout := -1 }).Timeout = 5 * second :=
  ⟨rfl, by
    rw [transRuntimeOption_timeout { Client.plain [] with Timeout := 5 * second }
      { RuntimeOption.zero with Timeout := -1 } rfl]
    decide⟩

/-- C10: the transport that `transRuntimeOption` builds skips certificate
validation exactly when the client or the override asks for it. -/
theorem transRuntimeOption_skip_verify (c : Client) (o : RuntimeOption) :
    ∃ tr, (transRuntimeOption c o).Transport = some tr ∧
      tr.Proxy = transProxy c o ∧
      tr.InsecureSkipVerify = (c.IgnoreSSL || o.IgnoreSSL) := by
  unfold transRuntimeOption
  by_cases h1 : o.Timeout > 0 <;> by_cases h2 : c.Timeout > 0 <;>
    cases h3 : o.IgnoreSSL <;> cases h4 : c.IgnoreSSL <;> simp [h1, h2]

/-! ## The chain executor never runs out of fuel -/

theorem chainSafe_emit {hs : List HandlerFn} {fuel k : Nat} {s : CallState} (e : Event)
    (h : ChainSafe hs fuel k s) : ChainSafe hs fuel k (s.emit e) := h

theorem runStmts_safe {hs : List HandlerFn} {fuel k : Nat} (self : Nat)
    (callNext : CallState → Exec)
    (hNext : ∀ s, ChainSafe hs fuel k s → ExecSafe hs fuel k (callNext s)) :
    ∀ (body : List Stmt) (s : CallState), ChainSafe hs fuel k s →
      ExecSafe hs fuel k (runStmts self callNext body s) := by
  intro body
  induction body with
  | nil => intro s h; exact h
  | cons st rest ih =>
    intro s h
    cases st with
    | mark tag => exact ih _ (chainSafe_emit _ h)
    | next =>
      have h1 := hNext s h
      simp only [runStmts]
      cases hr : callNext s with
      | done s1 => rw [hr] at h1; exact ih s1 h1
      | panicked v s1 => trivial
      | outOfFuel => rw [hr] at h1; exact h1
    | fault v => trivial

theorem terminalStep_safe {hs : List HandlerFn} {fuel k : Nat} (w : World) (client : HttpClient)
    (callNext : CallState → Exec)
    (hNext : ∀ s, ChainSafe hs fuel k s → ExecSafe hs fuel k (callNext s))
    (s : CallState) (h : ChainSafe hs fuel k s) :
    ExecSafe hs fuel k (terminalStep w client callNext s) := by
  unfold terminalStep
  simp only []
  cases hq : (s.emit .roundTrip).ctx.HttpRequest with
  | none => trivial
  | some httpReq =>
    simp only []
    cases hrt : w.clientDo client httpReq with
    | panics v => trivial
    | fails resp e => exact hNext _ h
    | responds resp data readErr =>
      cases readErr with
      | none => exact hNext _ h
      | some e => exact hNext _ h

theorem callHandler_safe {hs : List HandlerFn} {fuel k : Nat} (w : World) (self : Nat)
    (callNext : CallState → Exec)
    (hNext : ∀ s, ChainSafe hs fuel k s → ExecSafe hs fuel k (callNext s))
    (h : HandlerFn) (s : CallState) (hs0 : ChainSafe hs fuel k s) :
    ExecSafe hs fuel k (callHandler w callNext self h s) := by
  cases h with
  | user body => exact runStmts_safe self callNext hNext body _ (chainSafe_emit _ hs0)
  | terminal client => exact terminalStep_safe w client callNext hNext _ (chainSafe_emit _ hs0)

/-- A call of `Next` in a state that satisfies the invariant keeps it, or
panics; it does not run out of fuel. -/
theorem Next_safe (w : World) (hs : List HandlerFn) :
    ∀ (fuel k : Nat) (s : CallState), ChainSafe hs fuel k s →
      ExecSafe hs fuel k (Context.Next w fuel s) := by
  intro fuel
  induction fuel with
  | zero => intro k s h; exact absurd h.2.1 (by decide)
  | succ f ih =>
    intro k s h
    obtain ⟨hh, hf, hlo, hhi, hcase⟩ := h
    simp only [Context.Next]
    have hidx : s.incIndex.ctx.index = wrapInt8 (s.ctx.index + 1) := rfl
    have hhs : s.incIndex.ctx.handlers = hs := hh
    rw [hhs]
    by_cases hgt : wrapInt8 hs.length > s.incIndex.ctx.index
    · rw [if_pos hgt]
      cases hih : indexHandlers hs s.incIndex.ctx.index with
      | none => trivial
      | some hd =>
        simp only []
        have hnn : 0 ≤ s.incIndex.ctx.index := by
          unfold indexHandlers at hih
          by_contra hneg
          rw [if_pos (by omega)] at hih
          cases hih
        have hl8 : wrapInt8 hs.length ≤ 127 := by unfold wrapInt8; omega
        rw [hidx] at hnn hgt
        unfold wrapInt8 at hnn hgt
        have hin : ChainSafe hs f (k + 1) s.incIndex := by
          refine ⟨hhs, ?_, ?_, ?_, ?_⟩
          · unfold wrapInt8 at hl8 hcase; omega
          · rw [hidx]; unfold wrapInt8; omega
          · rw [hidx]; unfold wrapInt8; omega
          · rw [hidx]; unfold wrapInt8 at *; omega
        have hres := callHandler_safe w s.incIndex.ctx.index.toNat (Context.Next w f)
          (ih (k + 1)) hd s.incIndex hin
        cases hr : callHandler w (Context.Next w f) s.incIndex.ctx.index.toNat hd s.incIndex with
        | done s2 =>
          rw [hr] at hres
          obtain ⟨hh2, hf2, hlo2, hhi2, hcase2⟩ := hres
          have hidx2 : s2.incIndex.ctx.index = wrapInt8 (s2.ctx.index + 1) := rfl
          refine ⟨hh2, by omega, ?_, ?_, ?_⟩
          · rw [hidx2]; unfold wrapInt8; omega
          · rw [hidx2]; unfold wrapInt8; omega
          · rw [hidx2]; unfold wrapInt8 at *; omega
        | panicked v s2 => trivial
        | outOfFuel => rw [hr] at hres; exact hres
    · rw [if_neg hgt]
      rw [hidx] at hgt
      refine ⟨hhs, by omega, ?_, ?_, ?_⟩
      · rw [hidx]; unfold wrapInt8; omega
      · rw [hidx]; unfold wrapInt8; omega
      · rw [hidx]; unfold wrapInt8 at *; omega

/-! ## The call driver -/

theorem transHandlers_eq (ctx : Context) (c : Client) :
    transHandlers ctx c = { ctx with handlers := ctx.handlers ++ c.Handlers.map .user } := by
  unfold transHandlers
  generalize c.Handlers = l
  induction l generalizing ctx with
  | nil => simp
  | cons h t ih => simp [List.foldl, ih]

/-- The state in which the chain starts: the interceptors of the client in
their order, then the terminal step; cursor 0; nothing recorded. -/
theorem prepare_ready {w : World} {c : Client} {req : Request} {s : CallState}
    (h : c.prepare w req = .ready s) :
    s.ctx.handlers = c.Handlers.map .user ++
        [.terminal (transRuntimeOption c (transRequest req).RuntimeOption)] ∧
      s.ctx.index = 0 ∧ s.err = none ∧ s.events = [] ∧ s.cursor = [0] := by
  unfold Client.prepare at h
  simp only [transHandlers_eq] at h
  split at h
  · cases h
  · split at h
    · cases h
    · cases h
      simp

/-- The body of `Client.Do` does not run out of fuel: 128 nested calls of
`Next` are never needed. -/
theorem doBody_ne_outOfFuel (w : World) (c : Client) (req : Request) :
    c.doBody w req ≠ .outOfFuel := by
  unfold Client.doBody
  cases hp : c.prepare w req with
  | failed e => simp
  | faulted v => simp
  | ready s =>
    simp only []
    obtain ⟨_, hidx, _, _, _⟩ := prepare_ready hp
    cases hi : indexHandlers s.ctx.handlers 0 with
    | none => simp
    | some h =>
      simp only []
      have hsafe : ChainSafe s.ctx.handlers chainDepth 0 s := by
        refine ⟨rfl, by decide, ?_, ?_, ?_⟩
        · rw [hidx]; decide
        · rw [hidx]; decide
        · right; left; rw [hidx]; simp [chainDepth]
      have hres := callHandler_safe w 0 (Context.Next w chainDepth)
        (Next_safe w s.ctx.handlers chainDepth 0) h s hsafe
      cases hr : callHandler w (Context.Next w chainDepth) 0 h s with
      | done s1 => simp
      | panicked v s1 => simp
      | outOfFuel => rw [hr] at hres; exact hres.elim

/-- C4: whatever the interceptors and the network call do, panics included,
`Client.Do` returns to its caller: it ends with results, neither with a panic
nor without an end. -/
theorem Do_returns (w : World) (c : Client) (req : Request) :
    ∃ resp err, (c.Do w req).result = .returned resp err := by
  unfold Client.Do
  cases hb : c.doBody w req with
  | finished resp err events cursor => exact ⟨resp, err, rfl⟩
  | aborted v resp err events cursor =>
    cases v with
    | error e => exact ⟨resp, err, rfl⟩
    | other t => exact ⟨resp, err, rfl⟩
  | outOfFuel => exact absurd hb (doBody_ne_outOfFuel w c req)

/-- Whenever `Client.Do` returns a response, the error it returns is nil. -/
theorem Do_response_without_error (w : World) (c : Client) (req : Request)
    (resp : Response) (err : Option GoError)
    (h : (c.Do w req).result = .returned (some resp) err) : err = none := by
  unfold Client.Do Client.doBody at h
  cases hp : c.prepare w req with
  | failed e => rw [hp] at h; cases h
  | faulted v => rw [hp] at h; cases v <;> cases h
  | ready s =>
    rw [hp] at h
    simp only [] at h
    cases hi : indexHandlers s.ctx.handlers 0 with
    | none => rw [hi] at h; cases h
    | some hd =>
      rw [hi] at h
      simp only [] at h
      cases hr : callHandler w (Context.Next w chainDepth) 0 hd s with
      | done s1 => rw [hr] at h; cases h; rfl
      | panicked v s1 => rw [hr] at h; cases v <;> cases h
      | outOfFuel => rw [hr] at h; cases h

/-! ## Short circuit -/

theorem ownCode_only_code (self : Nat) (body : List Stmt) :
    ∀ e ∈ ownCode self body, ∃ tag, e = .code self tag := by
  induction body with
  | nil => intro e he; cases he
  | cons st rest ih =>
    cases st with
    | mark tag =>
      intro e he
      rcases List.mem_cons.mp he with h | h
      · exact ⟨tag, h⟩
      · exact ih e h
    | next => exact ih
    | fault v => intro e he; cases he

/-- A run without a call of `Next` records its own code and nothing else, and
leaves the cursor alone. -/
theorem runStmts_without_next (self : Nat) (callNext : CallState → Exec) :
    ∀ (body : List Stmt) (s : CallState), Stmt.next ∉ body →
      ∃ s1, (runStmts self callNext body s = .done s1 ∨
              ∃ v, runStmts self callNext body s = .panicked v s1) ∧
        s1.events = s.events ++ ownCode self body ∧ s1.cursor = s.cursor := by
  intro body
  induction body with
  | nil => intro s _; exact ⟨s, Or.inl rfl, by simp [ownCode], rfl⟩
  | cons st rest ih =>
    intro s hn
    have hrest : Stmt.next ∉ rest := fun h => hn (List.mem_cons_of_mem _ h)
    cases st with
    | mark tag =>
      obtain ⟨s1, hrun, hev, hcur⟩ := ih (s.emit (.code self tag)) hrest
      refine ⟨s1, hrun, ?_, hcur⟩
      rw [hev]
      simp [CallState.emit, ownCode]
    | next => exact absurd (List.mem_cons_self _ _) hn
    | fault v => exact ⟨s, Or.inr ⟨v, rfl⟩, by simp [ownCode], rfl⟩

/-- C6: when the first interceptor `A` does not call `Next`, the run of
`Client.Do` consists of the entry of `A` and the code of `A`, once and in
order: no later interceptor is entered, the network step does not run, and the
cursor stays at 0. -/
theorem Do_short_circuit (w : World) (c : Client) (req : Request) (A : Handler)
    (rest : List Handler) (hH : c.Handlers = A :: rest) (hA : Stmt.next ∉ A)
    (hp : ∃ s, c.prepare w req = .ready s) :
    (c.Do w req).events = .enter 0 :: ownCode 0 A ∧
      (∀ i, 1 ≤ i → Event.enter i ∉ (c.Do w req).events) ∧
      Event.roundTrip ∉ (c.Do w req).events ∧
      (c.Do w req).cursor = [0] := by
  obtain ⟨s, hs⟩ := hp
  obtain ⟨hh, _, _, hev, hcur⟩ := prepare_ready hs
  have hidx : indexHandlers s.ctx.handlers 0 = some (.user A) := by
    rw [hh, hH]; rfl
  obtain ⟨s1, hrun, hev1, hcur1⟩ :=
    runStmts_without_next 0 (Context.Next w chainDepth) A (s.emit (.enter 0)) hA
  have hev2 : s1.events = .enter 0 :: ownCode 0 A := by
    rw [hev1]; simp [CallState.emit, hev]
  have hcur2 : s1.cursor = [0] := by rw [hcur1]; exact hcur
  have hE : (c.Do w req).events = .enter 0 :: ownCode 0 A ∧ (c.Do w req).cursor = [0] := by
    unfold Client.Do Client.doBody
    rw [hs]
    simp only [hidx, callHandler]
    rcases hrun with hd | ⟨v, hv⟩
    · rw [hd]; exact ⟨hev2, hcur2⟩
    · rw [hv]
      cases v with
      | error e => exact ⟨hev2, hcur2⟩
      | other t => exact ⟨hev2, hcur2⟩
  refine ⟨hE.1, ?_, ?_, hE.2⟩
  · intro i hi hmem
    rw [hE.1] at hmem
    rcases List.mem_cons.mp hmem with h | h
    · cases h; omega
    · obtain ⟨tag, ht⟩ := ownCode_only_code 0 A _ h
      cases ht
  · intro hmem
    rw [hE.1] at hmem
    rcases List.mem_cons.mp hmem with h | h
    · cases h
    · obtain ⟨tag, ht⟩ := ownCode_only_code 0 A _ h
      cases ht

/-- C6 on the chain `[A, B]` where `A` is two pieces of code and `B` would
call `Next`: the run is the entry of `A` and its two pieces. -/
theorem Do_short_circuit_witness :
    (Client.Do (World.plain (.responds ⟨200, false⟩ [] none))
      (Client.plain [[.mark 1, .mark 2], [.mark 3, .next, .mark 4]]) Request.plain).events
      = [.enter 0, .code 0 1, .code 0 2] :=
  (Do_short_circuit (World.plain (.responds ⟨200, false⟩ [] none))
    (Client.plain [[.mark 1, .mark 2], [.mark 3, .next, .mark 4]]) Request.plain
    [.mark 1, .mark 2] [[.mark 3, .next, .mark 4]] rfl (by decide) ⟨_, rfl⟩).1

/-! ## The chain within the range of the cursor -/

/-- Past the end of a chain of at most 127 entries, with the cursor below 127,
`Next` runs no handler and does not panic: it only advances the cursor. -/
theorem Next_past_end (w : World) (fuel : Nat) (s : CallState)
    (hlen : s.ctx.handlers.length ≤ 127)
    (hend : (s.ctx.handlers.length : Int) ≤ s.ctx.index + 1) (hlt : s.ctx.index < 127) :
    Context.Next w (fuel + 1) s = .done s.incIndex := by
  have hidx : s.incIndex.ctx.index = wrapInt8 (s.ctx.index + 1) := rfl
  have hhs : s.incIndex.ctx.handlers = s.ctx.handlers := rfl
  simp only [Context.Next]
  rw [if_neg]
  rw [hidx, hhs]
  unfold wrapInt8
  omega

/-- Before the end of a chain of at most 127 entries, `Next` advances the
cursor, calls the handler there, and advances the cursor again. -/
theorem Next_before_end (w : World) (fuel i : Nat) (s : CallState) (h : HandlerFn)
    (hlen : s.ctx.handlers.length ≤ 127) (hidx : s.ctx.index = i)
    (hget : s.ctx.handlers.get? (i + 1) = some h) :
    Context.Next w (fuel + 1) s =
      match callHandler w (Context.Next w fuel) (i + 1) h s.incIndex with
      | .done s1 => .done s1.incIndex
      | r => r := by
  have hlt : i + 1 < s.ctx.handlers.length := by
    by_contra hge
    rw [List.get?_eq_none.mpr (by omega)] at hget
    cases hget
  have hi1 : s.incIndex.ctx.index = (i : Int) + 1 := by
    show wrapInt8 (s.ctx.index + 1) = _
    rw [hidx]; unfold wrapInt8; omega
  have hhs : s.incIndex.ctx.handlers = s.ctx.handlers := rfl
  have hl8 : wrapInt8 (s.ctx.handlers.length : Int) = (s.ctx.handlers.length : Int) := by
    unfold wrapInt8; omega
  have htn : ((i : Int) + 1).toNat = i + 1 := by omega
  have hih : indexHandlers s.ctx.handlers ((i : Int) + 1) = some h := by
    unfold indexHandlers
    rw [if_neg (by omega), htn]; exact hget
  rw [Context.Next]
  simp only [hhs, hi1, hl8, hih, htn]
  rw [if_pos (by omega)]

/-- The terminal step, when the network call does not panic, records what it
did and calls `Next`, with the chain and the cursor as they were. -/
theorem terminalStep_calls_next (w : World) (client : HttpClient)
    (callNext : CallState → Exec) (s : CallState) (httpReq : HttpRequest)
    (hreq : s.ctx.HttpRequest = some httpReq)
    (hnp : ∀ v, w.clientDo client httpReq ≠ .panics v) :
    ∃ t, terminalStep w client callNext s = callNext t ∧
      t.events = s.events ++ (w.clientDo client httpReq).events ∧
      t.ctx.handlers = s.ctx.handlers ∧ t.ctx.index = s.ctx.index := by
  have hreq2 : (s.emit .roundTrip).ctx.HttpRequest = some httpReq := hreq
  unfold terminalStep
  simp only [hreq2]
  cases hrt : w.clientDo client httpReq with
  | panics v => exact absurd hrt (hnp v)
  | fails resp e => exact ⟨_, rfl, by simp [CallState.emit, RoundTrip.events], rfl, rfl⟩
  | responds resp data readErr =>
    cases readErr with
    | none => exact ⟨_, rfl, by simp [CallState.emit, RoundTrip.events], rfl, rfl⟩
    | some e => exact ⟨_, rfl, by simp [CallState.emit, RoundTrip.events], rfl, rfl⟩

theorem runStmts_marks (self : Nat) (callNext : CallState → Exec) (tags : List Nat)
    (rest : List Stmt) (s : CallState) :
    runStmts self callNext (tags.map .mark ++ rest) s =
      runStmts self callNext rest
        { s with events := s.events ++ tags.map (.code self) } := by
  induction tags generalizing s with
  | nil => simp
  | cons t ts ih =>
    show runStmts self callNext (ts.map .mark ++ rest) (s.emit (.code self t)) = _
    rw [ih]
    simp [CallState.emit]

/-- The run of a layer as `handlers[self]`, when its call of `Next` ends in
`s1`: the first code, the call, the second code. -/
theorem runStmts_onionHandler (self : Nat) (callNext : CallState → Exec)
    (layer : List Nat × List Nat) (s s1 : CallState)
    (h : callNext { s with events := s.events ++ layer.1.map (.code self) } = .done s1) :
    runStmts self callNext (onionHandler layer) s =
      .done { s1 with events := s1.events ++ layer.2.map (.code self) } := by
  unfold onionHandler
  rw [List.append_assoc, runStmts_marks]
  show (match callNext _ with
    | .done s1 => runStmts self callNext (layer.2.map .mark) s1
    | r => r) = _
  rw [h]
  show runStmts self callNext (layer.2.map .mark) s1 = _
  rw [← List.append_nil (layer.2.map Stmt.mark), runStmts_marks]
  rfl

/-- From a cursor at `i`, in a chain of at most 127 entries whose entries after
`i` are the layers `layers` and then the terminal step, a call of `Next` runs
them in the order of the onion model. -/
theorem Next_onion (w : World) (client : HttpClient) (httpReq : HttpRequest)
    (hnp : ∀ v, w.clientDo client httpReq ≠ .panics v) :
    ∀ (layers : List (List Nat × List Nat)) (i fuel : Nat) (s : CallState),
      s.ctx.handlers.length ≤ 127 →
      s.ctx.handlers.drop (i + 1) = layers.map (fun l => .user (onionHandler l)) ++
        [.terminal client] →
      s.ctx.index = i →
      s.ctx.HttpRequest = some httpReq →
      layers.length + 2 ≤ fuel →
      ∃ s1, Context.Next w fuel s = .done s1 ∧
        s1.events = s.events ++ onionEvents (w.clientDo client httpReq) (i + 1) layers ∧
        s1.ctx.handlers = s.ctx.handlers := by
  intro layers
  induction layers with
  | nil =>
    intro i fuel s hlen hdrop hidx hreq hfuel
    obtain ⟨f, rfl⟩ : ∃ f, fuel = f + 2 := ⟨fuel - 2, by simp at hfuel; omega⟩
    have hlen2 : s.ctx.handlers.length = i + 2 := by
      have := congrArg List.length hdrop
      simp at this
      omega
    have hget : s.ctx.handlers.get? (i + 1) = some (.terminal client) := by
      have := congrArg List.head? hdrop
      simpa [List.head?_drop] using this
    have hi1 : s.incIndex.ctx.index = (i : Int) + 1 := by
      show wrapInt8 (s.ctx.index + 1) = _
      rw [hidx]; unfold wrapInt8; omega
    rw [Next_before_end w (f + 1) i s _ hlen hidx hget]
    obtain ⟨t, hrun, hev, hth, hti⟩ := terminalStep_calls_next w client (Context.Next w (f + 1))
      (s.incIndex.emit (.enter (i + 1))) httpReq hreq hnp
    have hts : t.ctx.handlers = s.ctx.handlers := hth
    have hnoop : Context.Next w (f + 1) t = .done t.incIndex := by
      apply Next_past_end
      · rw [hts]; exact hlen
      · rw [hts, hti, hlen2]
        show ((i + 2 : Nat) : Int) ≤ s.incIndex.ctx.index + 1
        rw [hi1]; push_cast; omega
      · rw [hti]
        show s.incIndex.ctx.index < 127
        rw [hi1]; omega
    show ∃ s1, (match terminalStep w client (Context.Next w (f + 1))
        (s.incIndex.emit (.enter (i + 1))) with
      | .done s1 => Exec.done s1.incIndex
      | r => r) = .done s1 ∧ _
    rw [hrun, hnoop]
    refine ⟨_, rfl, ?_, hts⟩
    show t.events = _
    rw [hev]
    simp [CallState.emit, CallState.incIndex, onionEvents]
  | cons layer rest ih =>
    intro i fuel s hlen hdrop hidx hreq hfuel
    obtain ⟨f, rfl⟩ : ∃ f, fuel = f + 1 := ⟨fuel - 1, by simp at hfuel; omega⟩
    have hget : s.ctx.handlers.get? (i + 1) = some (.user (onionHandler layer)) := by
      have := congrArg List.head? hdrop
      simpa [List.head?_drop] using this
    have hdrop2 : s.ctx.handlers.drop (i + 1 + 1) =
        rest.map (fun l => .user (onionHandler l)) ++ [.terminal client] := by
      have := congrArg List.tail hdrop
      simpa [List.tail_drop] using this
    have hlt : i + 1 < s.ctx.handlers.length := by
      by_contra hge
      rw [List.get?_eq_none.mpr (by omega)] at hget
      cases hget
    have hi1 : s.incIndex.ctx.index = (i : Int) + 1 := by
      show wrapInt8 (s.ctx.index + 1) = _
      rw [hidx]; unfold wrapInt8; omega
    rw [Next_before_end w f i s _ hlen hidx hget]
    obtain ⟨s1, hrun, hev, hh1⟩ := ih (i + 1) f
      { (s.incIndex.emit (.enter (i + 1))) with
        events := (s.incIndex.emit (.enter (i + 1))).events ++ layer.1.map (.code (i + 1)) }
      hlen hdrop2 (by simpa using hi1) hreq (by simp at hfuel ⊢; omega)
    show ∃ s1, (match runStmts (i + 1) (Context.Next w f) (onionHandler layer)
        (s.incIndex.emit (.enter (i + 1))) with
      | .done s1 => Exec.done s1.incIndex
      | r => r) = .done s1 ∧ _
    rw [runStmts_onionHandler (i + 1) (Context.Next w f) layer _ s1 hrun]
    refine ⟨_, rfl, ?_, hh1⟩
    show s1.events ++ _ = _
    rw [hev]
    simp [CallState.emit, CallState.incIndex, onionEvents]

/-- With at most 126 interceptors that each call `Next` once between two
pieces of code, and a network call that does not panic, `Client.Do` runs them
in the order of the onion model and returns a response. -/
theorem Do_onion_order (w : World) (c : Client) (req : Request) (s : CallState)
    (httpReq : HttpRequest) (layers : List (List Nat × List Nat))
    (hH : c.Handlers = layers.map onionHandler) (hn : layers.length ≤ 126)
    (hp : c.prepare w req = .ready s) (hreq : s.ctx.HttpRequest = some httpReq)
    (hnp : ∀ v, w.clientDo (transRuntimeOption c (transRequest req).RuntimeOption) httpReq
      ≠ .panics v) :
    (c.Do w req).events =
        onionEvents (w.clientDo (transRuntimeOption c (transRequest req).RuntimeOption) httpReq)
          0 layers ∧
      ∃ resp, (c.Do w req).result = .returned (some resp) none := by
  obtain ⟨hh, hidx, _, hev, _⟩ := prepare_ready hp
  rw [hH, List.map_map] at hh
  cases layers with
  | nil =>
    have hi0 : indexHandlers s.ctx.handlers 0 = some (.terminal
        (transRuntimeOption c (transRequest req).RuntimeOption)) := by rw [hh]; rfl
    obtain ⟨t, hrun, hevt, hth, hti⟩ := terminalStep_calls_next w
      (transRuntimeOption c (transRequest req).RuntimeOption) (Context.Next w chainDepth)
      (s.emit (.enter 0)) httpReq hreq hnp
    have hts : t.ctx.handlers = s.ctx.handlers := hth
    have hnoop : Context.Next w chainDepth t = .done t.incIndex := by
      apply Next_past_end
      · rw [hts, hh]; simp
      · rw [hts, hti, hh]
        show _ ≤ s.ctx.index + 1
        rw [hidx]; simp
      · rw [hti]
        show s.ctx.index < 127
        rw [hidx]; decide
    unfold Client.Do Client.doBody
    rw [hp]
    simp only [hi0, callHandler]
    rw [hrun, hnoop]
    refine ⟨?_, _, rfl⟩
    show t.events = _
    rw [hevt]
    simp [CallState.emit, onionEvents, hev]
  | cons layer rest =>
    have hi0 : indexHandlers s.ctx.handlers 0 = some (.user (onionHandler layer)) := by
      rw [hh]; rfl
    obtain ⟨s1, hrun, hev1, _⟩ := Next_onion w
      (transRuntimeOption c (transRequest req).RuntimeOption) httpReq hnp rest 0 chainDepth
      { (s.emit (.enter 0)) with
        events := (s.emit (.enter 0)).events ++ layer.1.map (.code 0) }
      (by show s.ctx.handlers.length ≤ 127; rw [hh]; simp at hn ⊢; omega)
      (by show s.ctx.handlers.drop (0 + 1) = _; rw [hh]; simp [Function.comp_def])
      (by simpa using hidx) hreq
      (by simp [chainDepth] at hn ⊢; omega)
    unfold Client.Do Client.doBody
    rw [hp]
    simp only [hi0, callHandler]
    rw [runStmts_onionHandler 0 (Context.Next w chainDepth) layer _ s1 hrun]
    refine ⟨?_, _, rfl⟩
    show s1.events ++ _ = _
    rw [hev1]
    simp [CallState.emit, onionEvents, hev]

/-! ## Runs in which the code departs from the specification -/

set_option maxRecDepth 100000 in
/-- C2: with no interceptor, a network call that fails with `connection
refused`, and one whose body cannot be read, both end in a response and a nil
error: `return ctx.Response, nil` overwrites the error the terminal step stored. -/
theorem Do_network_error_dropped :
    (∃ resp, (Client.Do (World.plain (.fails none (.msg "connection refused")))
        (Client.plain []) Request.plain).result = .returned (some resp) none) ∧
    (∃ resp, (Client.Do (World.plain (.responds ⟨200, false⟩ [1] (some (.msg "unexpected EOF"))))
        (Client.plain []) Request.plain).result = .returned (some resp) none) ∧
    (Client.Do (World.plain (.fails none (.msg "connection refused")))
        (Client.plain []) Request.plain).events = [.enter 0, .roundTrip] :=
  ⟨⟨_, rfl⟩, ⟨_, rfl⟩, by decide⟩

/-- C3: an interceptor that panics with the value `boom` makes `Client.Do`
return a nil response and a nil error; `errRecover` computes the error `boom`
from the panic value, and the `defer` statement discards it. -/
theorem Do_interceptor_panic_dropped :
    Client.Do (World.plain (.responds ⟨200, false⟩ [] none))
        (Client.plain [[.fault (.other "boom")]]) Request.plain =
      { result := .returned none none, recovered := some (.other "boom"),
        events := [.enter 0], cursor := [0] } ∧
    (errRecover (some (.other "boom"))).1 = some (.msg "boom") ∧
    (Client.Do (World.plain (.responds ⟨200, false⟩ [] none))
        (Client.plain [[.fault (.error (.msg "bad state"))]]) Request.plain).result =
      .returned none none := by
  decide

set_option maxRecDepth 100000 in
/-- C5: with 127 interceptors that each run code, call `Next` once and run
code again, only the first interceptor runs: the chain has 128 entries, its
length converts to the `int8` -128, and the first `Next` finds nothing to run. -/
theorem Do_long_chain_runs_first_only :
    (Client.Do (World.plain (.responds ⟨200, false⟩ [] none))
        (Client.plain (List.replicate 127 [.mark 0, .next, .mark 1])) Request.plain).events =
      [.enter 0, .code 0 0, .code 0 1] ∧
    (Client.Do (World.plain (.responds ⟨200, false⟩ [] none))
        (Client.plain (List.replicate 127 [.mark 0, .next, .mark 1])) Request.plain).cursor =
      [0, 1] := by
  decide

set_option maxRecDepth 100000 in
/-- C7: one interceptor that calls `Next` 126 times. After its first call every
handler has run, and the calls up to the 125th run nothing; the cursor is then
127, the 126th call wraps it to -128 and indexes the chain there, which panics. -/
theorem Next_after_chain_end_faults :
    (Client.Do (World.plain (.responds ⟨200, false⟩ [] none))
        (Client.plain [List.replicate 126 .next]) Request.plain).recovered =
      some (.error (.indexOutOfRange (-128) 2)) ∧
    (Client.Do (World.plain (.responds ⟨200, false⟩ [] none))
        (Client.plain [List.replicate 126 .next]) Request.plain).events =
      [.enter 0, .enter 1, .roundTrip, .readAll, .closeBody] ∧
    (Client.Do (World.plain (.responds ⟨200, false⟩ [] none))
        (Client.plain [List.replicate 126 .next]) Request.plain).cursor.drop 126 =
      [126, 127, -128] ∧
    (Client.Do (World.plain (.responds ⟨200, false⟩ [] none))
        (Client.plain [List.replicate 125 .next]) Request.plain).recovered = none := by
  decide

set_option maxRecDepth 100000 in
/-- C8: with 64 interceptors that each call `Next` once, the call ends
normally, and the cursor goes from 127 to -128 on the way back. -/
theorem cursor_wraps_with_64_interceptors :
    (Client.Do (World.plain (.responds ⟨200, false⟩ [] none))
        (Client.plain (List.replicate 64 [.next])) Request.plain).cursor.drop 127 =
      [127, -128, -127] ∧
    (Client.Do (World.plain (.responds ⟨200, false⟩ [] none))
        (Client.plain (List.replicate 64 [.next])) Request.plain).recovered = none ∧
    ¬ (Client.Do (World.plain (.responds ⟨200, false⟩ [] none))
        (Client.plain (List.replicate 64 [.next])) Request.plain).cursor.Pairwise (· ≤ ·) := by
  decide

/-! ## URL joining and construction failure -/

theorem trimRightSlash_spec (b : String) :
    (∃ n, b.data = (trimRightSlash b).data ++ List.replicate n '/') ∧
      (trimRightSlash b).data.getLast? ≠ some '/' := by
  constructor
  · refine ⟨(b.data.reverse.takeWhile (fun ch => ch == '/')).length, ?_⟩
    have h := List.takeWhile_append_dropWhile (fun ch => ch == '/') b.data.reverse
    have h2 := congrArg List.reverse h
    rw [List.reverse_append, List.reverse_reverse] at h2
    have h3 : (b.data.reverse.takeWhile (fun ch => ch == '/')).reverse =
        List.replicate (b.data.reverse.takeWhile (fun ch => ch == '/')).length '/' := by
      rw [List.eq_replicate_iff]
      refine ⟨by simp, ?_⟩
      intro x hx
      have := List.mem_takeWhile_imp (List.mem_reverse.mp hx)
      simpa using this
    rw [h3] at h2
    exact h2.symm
  · show (b.data.reverse.dropWhile (fun ch => ch == '/')).reverse.getLast? ≠ some '/'
    rw [List.getLast?_reverse]
    intro h
    have := List.head?_dropWhile_not (fun ch => ch == '/') b.data.reverse
    rw [h] at this
    simp at this

theorem trimLeftSlash_spec (p : String) :
    (∃ n, p.data = List.replicate n '/' ++ (trimLeftSlash p).data) ∧
      (trimLeftSlash p).data.head? ≠ some '/' := by
  constructor
  · refine ⟨(p.data.takeWhile (fun ch => ch == '/')).length, ?_⟩
    have h := List.takeWhile_append_dropWhile (fun ch => ch == '/') p.data
    have h3 : p.data.takeWhile (fun ch => ch == '/') =
        List.replicate (p.data.takeWhile (fun ch => ch == '/')).length '/' := by
      rw [List.eq_replicate_iff]
      refine ⟨rfl, ?_⟩
      intro x hx
      have := List.mem_takeWhile_imp hx
      simpa using this
    rw [h3] at h
    exact h.symm
  · show (p.data.dropWhile (fun ch => ch == '/')).head? ≠ some '/'
    intro h
    have := List.head?_dropWhile_not (fun ch => ch == '/') p.data
    rw [h] at this
    simp at this

theorem trimRightSlash_append_slash (b : String) :
    trimRightSlash (b ++ "/") = trimRightSlash b := by
  unfold trimRightSlash
  simp [String.data_append, List.dropWhile]

theorem trimLeftSlash_slash_append (p : String) :
    trimLeftSlash ("/" ++ p) = trimLeftSlash p := by
  unfold trimLeftSlash
  simp [String.data_append, List.dropWhile]

/-- C11: the URL that `Client.Do` resolves is the base URL without its
trailing slashes, one slash, and the path without its leading slashes; the
character before the slash and the character after it are not slashes; one
more trailing slash on the base URL, or one more leading slash on the path,
gives the same URL. -/
theorem reqUrl_single_slash (c : Client) (req : Request) :
    (∃ n m front back,
        c.BaseUrl.data = front ++ List.replicate n '/' ∧
        req.Uri.data = List.replicate m '/' ++ back ∧
        front.getLast? ≠ some '/' ∧ back.head? ≠ some '/' ∧
        (c.reqUrl req).data = front ++ '/' :: back) ∧
      ({ c with BaseUrl := c.BaseUrl ++ "/" } : Client).reqUrl req = c.reqUrl req ∧
      c.reqUrl { req with Uri := "/" ++ req.Uri } = c.reqUrl req ∧
      c.reqUrl (transRequest req) = c.reqUrl req := by
  obtain ⟨⟨n, hn⟩, hlast⟩ := trimRightSlash_spec c.BaseUrl
  obtain ⟨⟨m, hm⟩, hhead⟩ := trimLeftSlash_spec req.Uri
  refine ⟨⟨n, m, _, _, hn, hm, hlast, hhead, ?_⟩, ?_, ?_, ?_⟩
  · simp [Client.reqUrl, String.data_append]
  · simp only [Client.reqUrl, trimRightSlash_append_slash]
  · simp only [Client.reqUrl, trimLeftSlash_slash_append]
  · unfold Client.reqUrl transRequest
    cases req.Context <;> rfl

/-- The native request is built from the resolved URL, and `prepare` fails
exactly when that fails. -/
theorem prepare_failed_iff (w : World) (c : Client) (req : Request) (e : GoError) :
    c.prepare w req = .failed e ↔
      w.newRequestWithContext ((transRequest req).Context.getD .background)
        (transRequest req).Method (c.reqUrl (transRequest req)) (transRequest req).Body
        = .error e := by
  unfold Client.prepare
  simp only []
  constructor
  · intro h
    split at h
    · rename_i e1 he
      cases h
      exact he
    · split at h <;> cases h
  · intro h
    rw [h]

/-- C15: when the native request cannot be built, `Client.Do` returns a nil
response and the error of the construction; nothing of the chain runs, neither
an interceptor nor the network step. -/
theorem Do_construction_error (w : World) (c : Client) (req : Request) (e : GoError)
    (h : w.newRequestWithContext ((transRequest req).Context.getD .background)
        (transRequest req).Method (c.reqUrl (transRequest req)) (transRequest req).Body
        = .error e) :
    (c.Do w req).result = .returned none (some e) ∧ (c.Do w req).events = [] ∧
      (c.Do w req).recovered = none := by
  have hp := (prepare_failed_iff w c req e).mpr h
  unfold Client.Do Client.doBody
  rw [hp]
  exact ⟨rfl, rfl, rfl⟩

/-- C15 at a request with the method `BAD METHOD`, which has a space, sent by a
client with one interceptor: nothing runs, and the error of the method comes
back. -/
theorem Do_construction_error_witness :
    Client.Do (World.plain (.responds ⟨200, false⟩ [] none))
        (Client.plain [[.mark 0, .next]]) { Request.plain with Method := "BAD METHOD" } =
      { result := .returned none (some (.msg ("net/http: invalid method " ++
          String.singleton (Char.ofNat 34) ++ "BAD METHOD" ++ String.singleton (Char.ofNat 34)))),
        recovered := none, events := [], cursor := [0] } ∧
    (Client.Do (World.plain (.responds ⟨200, false⟩ [] none))
        (Client.plain [[.mark 0, .next]])
        { Request.plain with Method := "BAD METHOD" }).result =
      .returned none (some (.msg ("net/http: invalid method " ++
          String.singleton (Char.ofNat 34) ++ "BAD METHOD" ++ String.singleton (Char.ofNat 34)))) :=
  ⟨by decide,
   (Do_construction_error (World.plain (.responds ⟨200, false⟩ [] none))
    (Client.plain [[.mark 0, .next]]) { Request.plain with Method := "BAD METHOD" }
    (.msg ("net/http: invalid method " ++ String.singleton (Char.ofNat 34) ++ "BAD METHOD" ++
      String.singleton (Char.ofNat 34))) rfl).1⟩

/-! ## Headers and query -/

theorem lookup_cons_of_ne (k ak : String) (avs : List String) (t : Values) (h : k ≠ ak) :
    List.lookup k ((ak, avs) :: t) = List.lookup k t := by
  have h2 : (k == ak) = false := by simpa using h
  rw [List.lookup_cons, h2]

theorem lookup_map_assign_ne (m : Values) (key value k : String) (hk : k ≠ key) :
    List.lookup k (m.map (fun kv => if kv.1 == key then (key, [value]) else kv)) =
      List.lookup k m := by
  induction m with
  | nil => rfl
  | cons a t ih =>
    obtain ⟨ak, avs⟩ := a
    rw [List.map_cons]
    by_cases hak : ak = key
    · have hf : (if (ak, avs).1 == key then (key, [value]) else (ak, avs)) = (key, [value]) := by
        simp [hak]
      rw [hf, lookup_cons_of_ne k key _ _ hk, lookup_cons_of_ne k ak _ _ (hak ▸ hk), ih]
    · have hf : (if (ak, avs).1 == key then (key, [value]) else (ak, avs)) = (ak, avs) := by
        simp [hak]
      rw [hf]
      by_cases hka : k = ak
      · subst hka; simp
      · rw [lookup_cons_of_ne k ak _ _ hka, lookup_cons_of_ne k ak _ _ hka, ih]

theorem lookup_map_assign_eq (m : Values) (key value : String)
    (hany : m.any (fun kv => kv.1 == key) = true) :
    List.lookup key (m.map (fun kv => if kv.1 == key then (key, [value]) else kv)) =
      some [value] := by
  induction m with
  | nil => simp at hany
  | cons a t ih =>
    obtain ⟨ak, avs⟩ := a
    rw [List.map_cons]
    by_cases hak : ak = key
    · have hf : (if (ak, avs).1 == key then (key, [value]) else (ak, avs)) = (key, [value]) := by
        simp [hak]
      rw [hf]; simp
    · have hf : (if (ak, avs).1 == key then (key, [value]) else (ak, avs)) = (ak, avs) := by
        simp [hak]
      have h1 : (ak == key) = false := by simpa using hak
      have hany2 : t.any (fun kv => kv.1 == key) = true := by
        simpa [List.any_cons, h1] using hany
      rw [hf, lookup_cons_of_ne key ak _ _ (fun h => hak h.symm), ih hany2]

theorem lookup_append_single (m : Values) (key value k : String) :
    List.lookup k (m ++ [(key, [value])]) =
      match List.lookup k m with
      | some vs => some vs
      | none => if k = key then some [value] else none := by
  induction m with
  | nil =>
    by_cases hk : k = key
    · subst hk; simp
    · rw [List.nil_append, lookup_cons_of_ne k key _ _ hk]
      simp [hk]
  | cons a t ih =>
    obtain ⟨ak, avs⟩ := a
    rw [List.cons_append]
    by_cases hka : k = ak
    · subst hka; simp
    · rw [lookup_cons_of_ne k ak _ _ hka, lookup_cons_of_ne k ak _ _ hka, ih]

/-- After `m[key] = []string{value}` the map holds the single value for `key`
and what it held for every other key. -/
theorem lookup_assign (m : Values) (key value k : String) :
    List.lookup k (Values.assign m key value) =
      if k = key then some [value] else List.lookup k m := by
  unfold Values.assign
  by_cases hany : m.any (fun kv => kv.1 == key) = true
  · rw [if_pos hany]
    by_cases hk : k = key
    · rw [if_pos hk, hk]; exact lookup_map_assign_eq m key value hany
    · rw [if_neg hk]; exact lookup_map_assign_ne m key value k hk
  · rw [if_neg hany, lookup_append_single]
    by_cases hk : k = key
    · have hnone : List.lookup key m = none := by
        rw [List.lookup_eq_none_iff]
        intro kv hkv
        by_contra hc
        apply hany
        have hkey : key = kv.1 := by simpa using hc
        exact List.any_eq_true.mpr ⟨kv, hkv, by simp [hkey]⟩
      rw [if_pos hk, hk, hnone]
      simp
    · rw [if_neg hk]
      cases List.lookup k m <;> simp [hk]

/-- The assignment keeps the keys of the map distinct. -/
theorem keys_nodup_assign (m : Values) (key value : String)
    (h : (m.map Prod.fst).Nodup) : ((Values.assign m key value).map Prod.fst).Nodup := by
  unfold Values.assign
  by_cases hany : m.any (fun kv => kv.1 == key) = true
  · rw [if_pos hany]
    have : (m.map (fun kv => if kv.1 == key then (key, [value]) else kv)).map Prod.fst =
        m.map Prod.fst := by
      rw [List.map_map]
      apply List.map_congr_left
      intro kv _
      by_cases hkv : kv.1 = key <;> simp [hkv]
    rw [this]; exact h
  · rw [if_neg hany]
    rw [List.map_append, List.nodup_append]
    refine ⟨h, by simp, ?_⟩
    intro a ha hb
    simp only [List.map_cons, List.map_nil, List.mem_singleton] at hb
    subst hb
    apply hany
    obtain ⟨kv, hkv, hfst⟩ := List.mem_map.mp ha
    exact List.any_eq_true.mpr ⟨kv, hkv, by simp [hfst]⟩

theorem overlayQuery_cons (existing : Values) (kv : String × String)
    (rest : List (String × String)) :
    overlayQuery existing (kv :: rest) =
      overlayQuery (Values.assign existing kv.1 kv.2) rest := rfl

theorem lookup_overlayQuery_of_not_mem (query : List (String × String)) :
    ∀ (existing : Values) (k : String), k ∉ query.map Prod.fst →
      List.lookup k (overlayQuery existing query) = List.lookup k existing := by
  induction query with
  | nil => intro existing k _; rfl
  | cons kv rest ih =>
    intro existing k hk
    simp only [List.map_cons, List.mem_cons, not_or] at hk
    rw [overlayQuery_cons, ih _ k hk.2, lookup_assign, if_neg hk.1]

theorem lookup_overlayQuery_of_mem (query : List (String × String)) :
    ∀ (existing : Values) (k v : String), (query.map Prod.fst).Nodup → (k, v) ∈ query →
      List.lookup k (overlayQuery existing query) = some [v] := by
  induction query with
  | nil => intro existing k v _ h; cases h
  | cons kv rest ih =>
    intro existing k v hnd hmem
    rw [List.map_cons, List.nodup_cons] at hnd
    rw [overlayQuery_cons]
    rcases List.mem_cons.mp hmem with h | h
    · subst h
      rw [lookup_overlayQuery_of_not_mem rest _ _ hnd.1, lookup_assign, if_pos rfl]
    · exact ih _ k v hnd.2 h

theorem keys_nodup_overlayQuery (query : List (String × String)) :
    ∀ (existing : Values), (existing.map Prod.fst).Nodup →
      ((overlayQuery existing query).map Prod.fst).Nodup := by
  induction query with
  | nil => intro existing h; exact h
  | cons kv rest ih =>
    intro existing h
    rw [overlayQuery_cons]
    exact ih _ (keys_nodup_assign _ _ _ h)

/-- The encoding lists the entries of the map in ascending order of their keys. -/
theorem Encode_sorted (escape : String → String) (m : Values) :
    ∃ sorted : Values, sorted.Perm m ∧ sorted.Sorted (fun a b => a.1 ≤ b.1) ∧
      Values.Encode escape m = String.intercalate "&"
        (sorted.flatMap (fun kv => kv.2.map (fun v => escape kv.1 ++ "=" ++ escape v))) := by
  haveI : IsTotal (String × List String) (fun a b => a.1 ≤ b.1) := ⟨fun a b => le_total a.1 b.1⟩
  haveI : IsTrans (String × List String) (fun a b => a.1 ≤ b.1) :=
    ⟨fun _ _ _ h1 h2 => le_trans h1 h2⟩
  exact ⟨m.insertionSort (fun a b => a.1 ≤ b.1), List.perm_insertionSort _ m,
    List.sorted_insertionSort _ m, rfl⟩

/-- C12: for a request URL `u` and a map `Request.Query` (its keys distinct, as
those of the existing query), `transQuery` gives the URL that `u.Parse` makes of
the path, a question mark and the encoding of the overlaid query; the overlaid
query holds for every key of the map exactly its one value, for every other key
what the existing query held, and its encoding is in ascending order of the keys. -/
theorem transQuery_overlay (w : World) (req : Request) (newReq : HttpRequest) (u : URL)
    (hu : newReq.URL = some u) (hq : (req.Query.map Prod.fst).Nodup)
    (he : ((w.urlQuery u).map Prod.fst).Nodup) :
    transQuery w req newReq = .ok { newReq with
      URL := w.urlParse u
        (w.urlString { Scheme := "", Host := "", Path := u.Path, RawQuery := "" } ++ "?" ++
          Values.Encode w.queryEscape (overlayQuery (w.urlQuery u) req.Query)) } ∧
      (∀ k v, (k, v) ∈ req.Query →
        List.lookup k (overlayQuery (w.urlQuery u) req.Query) = some [v]) ∧
      (∀ k, k ∉ req.Query.map Prod.fst →
        List.lookup k (overlayQuery (w.urlQuery u) req.Query) = List.lookup k (w.urlQuery u)) ∧
      ((overlayQuery (w.urlQuery u) req.Query).map Prod.fst).Nodup ∧
      ∃ sorted : Values, sorted.Perm (overlayQuery (w.urlQuery u) req.Query) ∧
        sorted.Sorted (fun a b => a.1 ≤ b.1) ∧
        Values.Encode w.queryEscape (overlayQuery (w.urlQuery u) req.Query) =
          String.intercalate "&"
            (sorted.flatMap (fun kv => kv.2.map
              (fun v => w.queryEscape kv.1 ++ "=" ++ w.queryEscape v))) := by
  refine ⟨?_, ?_, ?_, ?_, ?_⟩
  · unfold transQuery
    rw [hu]
  · intro k v hmem
    exact lookup_overlayQuery_of_mem _ _ k v hq hmem
  · intro k hk
    exact lookup_overlayQuery_of_not_mem _ _ k hk
  · exact keys_nodup_overlayQuery _ _ he
  · exact Encode_sorted _ _

theorem insertionSort_abc :
    List.insertionSort (fun a b : String × List String => a.1 ≤ b.1)
        [("c", ["4"]), ("a", ["2"]), ("b", ["3"])] =
      [("a", ["2"]), ("b", ["3"]), ("c", ["4"])] := by
  simp +decide [List.insertionSort, List.orderedInsert]

theorem insertionSort_ab :
    List.insertionSort (fun a b : String × List String => a.1 ≤ b.1)
        [("a", ["2"]), ("b", ["3"])] = [("a", ["2"]), ("b", ["3"])] := by
  simp +decide [List.insertionSort, List.orderedInsert]

set_option maxRecDepth 100000 in
/-- C12 at the existing query `a=1`, `c=4` and the map with `b` set to 3 and `a`
set to 2, visited in that order: the outbound query is `a=2&b=3&c=4`; and at the
existing query `a=1` with the same map: `a=2&b=3`. -/
theorem transQuery_overlay_witness :
    transQuery (World.withQuery [("c", ["4"]), ("a", ["1"])])
        { Request.plain with Query := [("b", "3"), ("a", "2")] } HttpRequest.plain =
      .ok { HttpRequest.plain with
            URL := some { Scheme := "http", Host := "h", Path := "/x",
                          RawQuery := "a=2&b=3&c=4" } } ∧
    Values.Encode (fun x => x) (overlayQuery [("a", ["1"])] [("a", "2"), ("b", "3")]) =
      "a=2&b=3" ∧
    List.lookup "c" (overlayQuery [("c", ["4"]), ("a", ["1"])] [("b", "3"), ("a", "2")]) =
      some ["4"] := by
  have h1 : overlayQuery [("c", ["4"]), ("a", ["1"])] [("b", "3"), ("a", "2")] =
      [("c", ["4"]), ("a", ["2"]), ("b", ["3"])] := by decide
  have h2 : overlayQuery [("a", ["1"])] [("a", "2"), ("b", "3")] =
      [("a", ["2"]), ("b", ["3"])] := by decide
  refine ⟨?_, ?_, by decide⟩
  · rw [(transQuery_overlay (World.withQuery [("c", ["4"]), ("a", ["1"])])
      { Request.plain with Query := [("b", "3"), ("a", "2")] } HttpRequest.plain
      { Scheme := "http", Host := "h", Path := "/x", RawQuery := "" } rfl
      (by decide) (by decide)).1]
    show Except.ok { HttpRequest.plain with
      URL := (World.withQuery [("c", ["4"]), ("a", ["1"])]).urlParse
        { Scheme := "http", Host := "h", Path := "/x", RawQuery := "" }
        ("/x" ++ "?" ++ Values.Encode (fun x => x)
          (overlayQuery [("c", ["4"]), ("a", ["1"])] [("b", "3"), ("a", "2")])) } = _
    rw [h1]
    unfold Values.Encode
    simp only [insertionSort_abc]
    rfl
  · rw [h2]
    unfold Values.Encode
    simp only [insertionSort_ab]
    rfl

/-- C14, as the code has it: after `transHeader` the `User-Agent` of the
outbound request is the `UserAgent` of the client when that is not empty, and
otherwise the default of the library, whatever the header of the request sets;
the value of the client takes precedence over the default. -/
theorem transHeader_user_agent (w : World) (req : Request) (newReq : HttpRequest)
    (c : Client) :
    List.lookup (w.canonicalHeaderKey "User-Agent") (transHeader w req newReq c).Header =
      some [if c.UserAgent ≠ "" then c.UserAgent
            else "HttpGO " ++ w.GOOS ++ " " ++ w.goVersion] := by
  unfold transHeader
  simp only []
  rw [lookup_assign, if_pos rfl]
  by_cases h : c.UserAgent = ""
  · have hg : ¬ goLen c.UserAgent > 0 := fun hp => (goLen_pos_iff _).mp hp h
    rw [if_neg hg, if_neg (not_not.mpr h)]
  · have hg : goLen c.UserAgent > 0 := (goLen_pos_iff _).mpr h
    rw [if_pos hg, if_pos h]

/-- C14 fails as stated: a request that sets `User-Agent` to `mine/1.0`, sent
by a client without a `UserAgent`, goes out with the default of the library. -/
theorem transHeader_overrides_caller_user_agent :
    ¬ (List.lookup "User-Agent"
        (transHeader (World.plain (.responds ⟨200, false⟩ [] none))
          { Request.plain with Header := [("User-Agent", ["mine/1.0"])] }
          HttpRequest.plain (Client.plain [])).Header = some ["mine/1.0"]) ∧
    List.lookup "User-Agent"
        (transHeader (World.plain (.responds ⟨200, false⟩ [] none))
          { Request.plain with Header := [("User-Agent", ["mine/1.0"])] }
          HttpRequest.plain (Client.plain [])).Header = some ["HttpGO linux go1.21"] := by
  decide

/-- C13: a request header `Accept` with the two values `text/html` and
`application/json` goes out with the last value only: every value is stored
with `Header.Set`, which replaces what the key held. -/
theorem transHeader_keeps_last_value_only :
    List.lookup "Accept"
        (transHeader (World.plain (.responds ⟨200, false⟩ [] none))
          { Request.plain with Header := [("Accept", ["text/html", "application/json"])] }
          HttpRequest.plain (Client.plain [])).Header = some ["application/json"] ∧
    (transHeader (World.plain (.responds ⟨200, false⟩ [] none))
          { Request.plain with Header := [("Accept", ["text/html", "application/json"])] }
          HttpRequest.plain (Client.plain [])).Header =
      [("Accept", ["application/json"]), ("User-Agent", ["HttpGO linux go1.21"])] := by
  decide

/-! ## The trace and the response body -/

/-- When the first byte of the response never arrives, `TraceMiddleware`
measures the download from the zero `Time`. -/
theorem TraceMiddleware_download_without_first_byte (existing : Option Trace)
    (startTime : Time) (hooks : List HookEvent) (afterNext atEnd : Time)
    (h : ∀ now, HookEvent.GotFirstResponseByte now ∉ hooks) :
    (TraceMiddleware existing startTime hooks afterNext atEnd).Download =
      timeSince afterNext 0 := by
  unfold TraceMiddleware
  simp only []
  suffices hs : ∀ (st : TraceState), st.downloadStart = 0 →
      (hooks.foldl TraceState.fire st).downloadStart = 0 by
    rw [hs _ rfl]
  induction hooks with
  | nil => intro st hst; exact hst
  | cons e rest ih =>
    intro st hst
    rw [List.foldl_cons]
    apply ih (fun now hmem => h now (List.mem_cons_of_mem _ hmem))
    cases e with
    | GotFirstResponseByte now => exact absurd (List.mem_cons_self _ _) (h now)
    | _ => exact hst

/-- C16: a traced call on November 4, 2026 whose connection is refused after 3
milliseconds, so that the events of the connection fire and the one of the
first byte does not. The recorded download is the largest duration, about 292
years, and not zero; the durations of the phases that did not happen are zero. -/
theorem TraceMiddleware_download_not_zero :
    TraceMiddleware none sampleNow
        [.ConnectStart (sampleNow + 1000000), .ConnectDone (sampleNow + 3000000)]
        (sampleNow + 3100000) (sampleNow + 3200000) =
      { DNS := 0, TLSHandshake := 0, Connect := 2000000, Download := maxDuration,
        Total := 3200000 } ∧
    (TraceMiddleware none sampleNow [] (sampleNow + 3100000) (sampleNow + 3200000)).Download ≠ 0 ∧
    (TraceMiddleware none sampleNow
        [.GotFirstResponseByte (sampleNow + 2000000)]
        (sampleNow + 3100000) (sampleNow + 3200000)).Download = 1100000 := by
  decide

set_option maxRecDepth 100000 in
/-- C17: the network call returns a response and the read of its body fails.
The terminal step reads and does not close: the run has no `closeBody`, and the
response that `Client.Do` returns has its body open. When the read succeeds the
body is closed. -/
theorem Do_leaves_body_open_on_read_error :
    (Client.Do (World.plain (.responds ⟨200, false⟩ [1, 2] (some (.msg "unexpected EOF"))))
        (Client.plain []) Request.plain).events = [.enter 0, .roundTrip, .readAll] ∧
    (∃ resp, (Client.Do (World.plain (.responds ⟨200, false⟩ [1, 2]
          (some (.msg "unexpected EOF")))) (Client.plain []) Request.plain).result =
        .returned (some resp) none ∧ resp.HttpResponse = some ⟨200, false⟩) ∧
    (Client.Do (World.plain (.responds ⟨200, false⟩ [1, 2] none))
        (Client.plain []) Request.plain).events =
      [.enter 0, .roundTrip, .readAll, .closeBody] :=
  ⟨by decide, ⟨_, rfl, rfl⟩, by decide⟩

/-! ## Interceptors that let panics pass enter the handlers in increasing order -/

theorem entered_emit_enter (s : CallState) (i : Nat) :
    entered (s.emit (.enter i)).events = entered s.events ++ [i] := by
  simp [entered, CallState.emit, List.filterMap_append]

theorem entered_emit_other (s : CallState) (e : Event) (h : ∀ i, e ≠ .enter i) :
    entered (s.emit e).events = entered s.events := by
  cases e with
  | enter i => exact absurd rfl (h i)
  | _ => simp [entered, CallState.emit, List.filterMap_append]

theorem chainOrdered_emit_other {hs : List HandlerFn} {s : CallState} (e : Event)
    (h : ∀ i, e ≠ .enter i) (ho : ChainOrdered hs s) : ChainOrdered hs (s.emit e) := by
  unfold ChainOrdered
  rw [entered_emit_other s e h]
  exact ho

theorem runStmts_ordered {hs : List HandlerFn} {fuel k : Nat} (self : Nat)
    (callNext : CallState → Exec)
    (hSafe : ∀ s, ChainSafe hs fuel k s → ExecSafe hs fuel k (callNext s))
    (hOrd : ∀ s, ChainSafe hs fuel k s → ChainOrdered hs s → ExecOrdered hs (callNext s)) :
    ∀ (body : List Stmt) (s : CallState), ChainSafe hs fuel k s → ChainOrdered hs s →
      ExecOrdered hs (runStmts self callNext body s) := by
  intro body
  induction body with
  | nil => intro s _ ho; exact ho
  | cons st rest ih =>
    intro s h ho
    cases st with
    | mark tag =>
      exact ih _ (chainSafe_emit _ h) (chainOrdered_emit_other _ (fun i hi => by cases hi) ho)
    | next =>
      have h1 := hSafe s h
      have h2 := hOrd s h ho
      simp only [runStmts]
      cases hr : callNext s with
      | done s1 => rw [hr] at h1 h2; exact ih s1 h1 h2
      | panicked v s1 => rw [hr] at h2; exact h2
      | outOfFuel => trivial
    | fault v => exact ho.1

theorem terminalStep_ordered {hs : List HandlerFn} {fuel k : Nat} (w : World)
    (client : HttpClient) (callNext : CallState → Exec)
    (hOrd : ∀ s, ChainSafe hs fuel k s → ChainOrdered hs s → ExecOrdered hs (callNext s))
    (s : CallState) (h : ChainSafe hs fuel k s) (ho : ChainOrdered hs s) :
    ExecOrdered hs (terminalStep w client callNext s) := by
  have ho1 : ChainOrdered hs (s.emit .roundTrip) :=
    chainOrdered_emit_other _ (fun i hi => by cases hi) ho
  have ho2 : ChainOrdered hs ((s.emit .roundTrip).emit .readAll) :=
    chainOrdered_emit_other _ (fun i hi => by cases hi) ho1
  have ho3 : ChainOrdered hs (((s.emit .roundTrip).emit .readAll).emit .closeBody) :=
    chainOrdered_emit_other _ (fun i hi => by cases hi) ho2
  unfold terminalStep
  simp only []
  cases hq : (s.emit .roundTrip).ctx.HttpRequest with
  | none => exact ho1.1
  | some httpReq =>
    simp only []
    cases hrt : w.clientDo client httpReq with
    | panics v => exact ho1.1
    | fails resp e => exact hOrd _ h ho1
    | responds resp data readErr =>
      cases readErr with
      | none => exact hOrd _ h ho3
      | some e => exact hOrd _ h ho2

theorem callHandler_ordered {hs : List HandlerFn} {fuel k : Nat} (w : World) (self : Nat)
    (callNext : CallState → Exec)
    (hSafe : ∀ s, ChainSafe hs fuel k s → ExecSafe hs fuel k (callNext s))
    (hOrd : ∀ s, ChainSafe hs fuel k s → ChainOrdered hs s → ExecOrdered hs (callNext s))
    (h : HandlerFn) (s : CallState) (hs0 : ChainSafe hs fuel k s)
    (ho : ChainOrdered hs (s.emit (.enter self))) :
    ExecOrdered hs (callHandler w callNext self h s) := by
  cases h with
  | user body =>
    exact runStmts_ordered self callNext hSafe hOrd body _ (chainSafe_emit _ hs0) ho
  | terminal client =>
    exact terminalStep_ordered w client callNext hOrd _ (chainSafe_emit _ hs0) ho

/-- A call of `Next` in a state that satisfies both invariants enters handlers
in increasing order only. -/
theorem Next_ordered (w : World) (hs : List HandlerFn) :
    ∀ (fuel k : Nat) (s : CallState), ChainSafe hs fuel k s → ChainOrdered hs s →
      ExecOrdered hs (Context.Next w fuel s) := by
  intro fuel
  induction fuel with
  | zero => intro k s _ _; trivial
  | succ f ih =>
    intro k s h ho
    obtain ⟨hh, hf, hlo, hhi, hcase⟩ := h
    obtain ⟨hsorted, hbelow⟩ := ho
    have hidx : s.incIndex.ctx.index = wrapInt8 (s.ctx.index + 1) := rfl
    have hhs : s.incIndex.ctx.handlers = hs := hh
    have hent : entered s.incIndex.events = entered s.events := rfl
    rw [Context.Next]
    simp only [hhs]
    by_cases hgt : wrapInt8 hs.length > s.incIndex.ctx.index
    · rw [if_pos hgt]
      cases hih : indexHandlers hs s.incIndex.ctx.index with
      | none => exact hsorted
      | some hd =>
        simp only []
        have hnn : 0 ≤ s.incIndex.ctx.index := by
          unfold indexHandlers at hih
          by_contra hneg
          rw [if_pos (by omega)] at hih
          cases hih
        have hl8 : wrapInt8 hs.length ≤ 127 := by unfold wrapInt8; omega
        have hnn2 := hnn
        have hgt2 := hgt
        rw [hidx] at hnn2 hgt2
        unfold wrapInt8 at hnn2 hgt2
        have hj0 : 0 ≤ s.ctx.index := by unfold wrapInt8 at hl8 hcase; omega
        have hj126 : s.ctx.index ≤ 126 := by omega
        have hi1 : s.incIndex.ctx.index = s.ctx.index + 1 := by
          rw [hidx]; unfold wrapInt8; omega
        have hpos : 1 ≤ wrapInt8 hs.length := by omega
        have hin : ChainSafe hs f (k + 1) s.incIndex := by
          refine ⟨hhs, ?_, ?_, ?_, ?_⟩
          · unfold wrapInt8 at hl8 hcase; omega
          · omega
          · omega
          · rw [hi1]; unfold wrapInt8 at hpos hcase ⊢; omega
        have hoin : ChainOrdered hs (s.incIndex.emit (.enter s.incIndex.ctx.index.toNat)) := by
          unfold ChainOrdered
          rw [entered_emit_enter, hent]
          constructor
          · rw [List.pairwise_append]
            refine ⟨hsorted, List.pairwise_singleton _ _, ?_⟩
            intro a ha b hb
            rw [List.mem_singleton] at hb
            subst hb
            rcases hbelow a ha with h0 | ⟨_, h1 | h1⟩
            · omega
            · omega
            · omega
          · intro i hi
            rcases List.mem_append.mp hi with h1 | h1
            · rcases hbelow i h1 with h0 | ⟨_, h2 | h2⟩
              · exact Or.inl h0
              · exact Or.inr ⟨hpos, Or.inl ⟨hnn, by
                  show (i : Int) ≤ s.incIndex.ctx.index
                  omega⟩⟩
              · omega
            · rw [List.mem_singleton] at h1
              subst h1
              exact Or.inr ⟨hpos, Or.inl ⟨hnn, by
                show ((s.incIndex.ctx.index.toNat : Nat) : Int) ≤ s.incIndex.ctx.index
                omega⟩⟩
        have hsafe := callHandler_safe w s.incIndex.ctx.index.toNat (Context.Next w f)
          (Next_safe w hs f (k + 1)) hd s.incIndex hin
        have hord := callHandler_ordered w s.incIndex.ctx.index.toNat (Context.Next w f)
          (Next_safe w hs f (k + 1)) (ih (k + 1)) hd s.incIndex hin hoin
        cases hr : callHandler w (Context.Next w f) s.incIndex.ctx.index.toNat hd s.incIndex with
        | done s2 =>
          rw [hr] at hsafe hord
          obtain ⟨hh2, hf2, hlo2, hhi2, hcase2⟩ := hsafe
          obtain ⟨hsorted2, hbelow2⟩ := hord
          have hidx2 : s2.incIndex.ctx.index = wrapInt8 (s2.ctx.index + 1) := rfl
          refine ⟨hsorted2, ?_⟩
          intro i hi
          rcases hbelow2 i hi with h0 | ⟨_, h2 | h2⟩
          · exact Or.inl h0
          · refine Or.inr ⟨hpos, ?_⟩
            by_cases h127 : s2.ctx.index = 127
            · right; rw [hidx2, h127]; decide
            · left
              have : s2.incIndex.ctx.index = s2.ctx.index + 1 := by
                rw [hidx2]; unfold wrapInt8; omega
              rw [this]; omega
          · refine Or.inr ⟨hpos, Or.inr ?_⟩
            rw [hidx2]
            unfold wrapInt8 at hpos hcase2 ⊢
            omega
        | panicked v s2 => rw [hr] at hord; exact hord
        | outOfFuel => trivial
    · rw [if_neg hgt]
      refine ⟨hsorted, ?_⟩
      intro i hi
      rcases hbelow i hi with h0 | ⟨hpos, h2 | h2⟩
      · exact Or.inl h0
      · refine Or.inr ⟨hpos, ?_⟩
        rw [hidx] at hgt ⊢
        unfold wrapInt8 at hgt hpos ⊢
        omega
      · refine Or.inr ⟨hpos, ?_⟩
        rw [hidx] at hgt ⊢
        unfold wrapInt8 at hgt hpos ⊢
        omega

/-- With interceptors that let every panic pass (`Handler`), whatever the chain
and however they call `Next`, the handlers are entered in strictly increasing
order of index during a run of `Client.Do`, the wrap of the cursor included.
An interceptor that recovers the panics of `Next` is described by `Act`. -/
theorem Do_enters_in_increasing_order (w : World) (c : Client) (req : Request) :
    (entered (c.Do w req).events).Sorted (· < ·) ∧ (entered (c.Do w req).events).Nodup := by
  have hsorted : (entered (c.Do w req).events).Pairwise (· < ·) := by
    unfold Client.Do Client.doBody
    cases hp : c.prepare w req with
    | failed e => exact List.Pairwise.nil
    | faulted v => cases v <;> exact List.Pairwise.nil
    | ready s =>
      simp only []
      obtain ⟨_, hidx, _, hev, _⟩ := prepare_ready hp
      cases hi : indexHandlers s.ctx.handlers 0 with
      | none => exact List.Pairwise.nil
      | some h =>
        simp only []
        have hsafe : ChainSafe s.ctx.handlers chainDepth 0 s := by
          refine ⟨rfl, by decide, ?_, ?_, ?_⟩
          · rw [hidx]; decide
          · rw [hidx]; decide
          · right; left; rw [hidx]; simp [chainDepth]
        have hord0 : ChainOrdered s.ctx.handlers (s.emit (.enter 0)) := by
          unfold ChainOrdered
          rw [entered_emit_enter, hev]
          exact ⟨by simp [entered], fun i hi => Or.inl (by simpa [entered] using hi)⟩
        have hres := callHandler_ordered w 0 (Context.Next w chainDepth)
          (Next_safe w s.ctx.handlers chainDepth 0) (Next_ordered w s.ctx.handlers chainDepth 0)
          h s hsafe hord0
        cases hr : callHandler w (Context.Next w chainDepth) 0 h s with
        | done s1 => rw [hr] at hres; exact hres.1
        | panicked v s1 =>
          rw [hr] at hres
          cases v <;> exact hres
        | outOfFuel => exact List.Pairwise.nil
  exact ⟨hsorted, hsorted.imp (fun h => Nat.ne_of_lt h)⟩

/-! ## Interceptors in general: chains of 128 to 256 entries -/

/-- When the length of the chain converts to an `int8` that is not positive,
`Next` runs no handler: it advances the cursor and returns, or panics. -/
theorem fullNext_truncated (w : World) (fuel : Nat) (s : FullState)
    (hl : wrapInt8 s.ctx.handlers.length ≤ 0) :
    FullContext.Next w (fuel + 1) s = .done s.incIndex ∨
      ∃ v, FullContext.Next w (fuel + 1) s = .panicked v s.incIndex := by
  have hhs : s.incIndex.ctx.handlers = s.ctx.handlers := rfl
  rw [FullContext.Next]
  simp only [hhs]
  by_cases hgt : wrapInt8 s.ctx.handlers.length > s.incIndex.ctx.index
  · rw [if_pos hgt]
    have hnone : indexFullHandlers s.ctx.handlers s.incIndex.ctx.index = none := by
      unfold indexFullHandlers
      rw [if_pos (by omega)]
    rw [hnone]
    exact Or.inr ⟨_, rfl⟩
  · rw [if_neg hgt]
    exact Or.inl rfl

/-- In such a chain the run of an interceptor, whatever it does, records code of
its own only; when it runs to its end, it records all its code and leaves in
`c.Response` what it last assigned to it. -/
theorem runActs_truncated (w : World) (fuel self : Nat) :
    ∀ (body : List Act) (s : FullState), wrapInt8 s.ctx.handlers.length ≤ 0 →
      ∃ s1 codes, s1.events = s.events ++ codes ∧
        (∀ e ∈ codes, ∃ tag, e = Event.code self tag) ∧
        ((runActs self (FullContext.Next w (fuel + 1)) body s = .done s1 ∧
            codes = ownActCode self body ∧
            s1.ctx.Response = responseLeft s.ctx.Response body) ∨
          ∃ v, runActs self (FullContext.Next w (fuel + 1)) body s = .panicked v s1) := by
  intro body
  induction body with
  | nil =>
    intro s _
    exact ⟨s, [], by simp, by simp, Or.inl ⟨rfl, rfl, rfl⟩⟩
  | cons a rest ih =>
    intro s hl
    cases a with
    | mark tag =>
      obtain ⟨s1, codes, hev, hc, hrun⟩ := ih (s.emit (.code self tag)) hl
      refine ⟨s1, .code self tag :: codes, ?_, ?_, ?_⟩
      · rw [hev]; simp [FullState.emit]
      · intro e he
        rcases List.mem_cons.mp he with h | h
        · exact ⟨tag, h⟩
        · exact hc e h
      · rcases hrun with ⟨hd, hcodes, hresp⟩ | ⟨v, hv⟩
        · exact Or.inl ⟨hd, by rw [hcodes]; rfl, hresp⟩
        · exact Or.inr ⟨v, hv⟩
    | next =>
      rcases fullNext_truncated w fuel s hl with hd | ⟨v, hv⟩
      · obtain ⟨s1, codes, hev, hc, hrun⟩ := ih s.incIndex hl
        refine ⟨s1, codes, hev, hc, ?_⟩
        simp only [runActs, hd]
        exact hrun
      · refine ⟨s.incIndex, [], by simp [FullState.incIndex], by simp, Or.inr ⟨v, ?_⟩⟩
        simp only [runActs, hv]
    | nextRecovered =>
      obtain ⟨s1, codes, hev, hc, hrun⟩ := ih s.incIndex hl
      refine ⟨s1, codes, hev, hc, ?_⟩
      rcases fullNext_truncated w fuel s hl with hd | ⟨v, hv⟩
      · simp only [runActs, hd]
        exact hrun
      · simp only [runActs, hv]
        exact hrun
    | fault v =>
      exact ⟨s, [], by simp, by simp, Or.inr ⟨v, rfl⟩⟩
    | setRequest r =>
      exact ih { s with ctx := { s.ctx with Request := r } } hl
    | setResponse r =>
      exact ih { s with ctx := { s.ctx with Response := r } } hl
    | setHttpRequest r =>
      exact ih { s with ctx := { s.ctx with HttpRequest := r } } hl
    | setHttpResponse r =>
      exact ih { s with ctx := { s.ctx with HttpResponse := r } } hl

theorem transFullHandlers_eq (ctx : FullContext) (c : FullClient) :
    transFullHandlers ctx c =
      { ctx with handlers := ctx.handlers ++ c.Handlers.map .user } := by
  unfold transFullHandlers
  generalize c.Handlers = l
  induction l generalizing ctx with
  | nil => simp
  | cons h t ih => simp [List.foldl, ih]

/-- The state in which the chain starts: the interceptors of the client in
their order, then the terminal step; cursor 0; the response `Client.Do`
allocated; nothing recorded. -/
theorem fullPrepare_ready {w : World} {c : FullClient} {req : Request} {s : FullState}
    (h : c.prepare w req = .ready s) :
    s.ctx.handlers = c.Handlers.map .user ++
        [.terminal (transRuntimeOption c.settings (transRequest req).RuntimeOption)] ∧
      s.ctx.index = 0 ∧ s.ctx.Response = some Response.empty ∧ s.err = none ∧
      s.events = [] ∧ s.cursor = [0] := by
  unfold FullClient.prepare at h
  simp only [transFullHandlers_eq] at h
  split at h
  · cases h
  · split at h
    · cases h
    · cases h
      simp

/-- C19, as the code has it: in a chain of 128 to 256 entries, whatever the
interceptors do, no call of `Next` runs a handler, so that only the first
interceptor is entered, once, and the network step never runs; the call ends;
and when the first interceptor returns, `Client.Do` returns what that
interceptor left in `c.Response`, the response `Client.Do` allocated unless the
interceptor assigned the field, with a nil error. -/
theorem FullDo_truncated_chain (w : World) (depth : Nat) (c : FullClient) (req : Request)
    (s : FullState) (A : Interceptor) (rest : List Interceptor)
    (hH : c.Handlers = A :: rest)
    (hlo : 128 ≤ c.Handlers.length + 1) (hhi : c.Handlers.length + 1 ≤ 256)
    (hd : 1 ≤ depth) (hp : c.prepare w req = .ready s) :
    entered (c.Do w depth req).events = [0] ∧
      Event.roundTrip ∉ (c.Do w depth req).events ∧
      (c.Do w depth req).result ≠ .outOfFuel ∧
      ((c.Do w depth req).recovered = none →
        (c.Do w depth req).result = .returned (responseLeft (some Response.empty) A) none ∧
          (c.Do w depth req).events = .enter 0 :: ownActCode 0 A) := by
  obtain ⟨f, rfl⟩ : ∃ f, depth = f + 1 := ⟨depth - 1, by omega⟩
  obtain ⟨hh, _, hresp, _, hev, _⟩ := fullPrepare_ready hp
  have hlen : s.ctx.handlers.length = c.Handlers.length + 1 := by rw [hh]; simp
  have hl : wrapInt8 (s.emit (.enter 0)).ctx.handlers.length ≤ 0 := by
    show wrapInt8 s.ctx.handlers.length ≤ 0
    rw [hlen]; unfold wrapInt8; push_cast; omega
  have hi0 : indexFullHandlers s.ctx.handlers 0 = some (.user A) := by rw [hh, hH]; rfl
  obtain ⟨s1, codes, hev1, hc, hrun⟩ := runActs_truncated w f 0 A (s.emit (.enter 0)) hl
  have hev2 : s1.events = .enter 0 :: codes := by
    rw [hev1]; simp [FullState.emit, hev]
  have hent : entered (Event.enter 0 :: codes) = [0] := by
    have hnil : entered codes = [] := by
      unfold entered
      rw [List.filterMap_eq_nil_iff]
      intro e he
      obtain ⟨tag, ht⟩ := hc e he
      rw [ht]
    show 0 :: entered codes = [0]
    rw [hnil]
  have hnrt : Event.roundTrip ∉ Event.enter 0 :: codes := by
    intro hmem
    rcases List.mem_cons.mp hmem with h | h
    · cases h
    · obtain ⟨tag, ht⟩ := hc _ h
      cases ht
  unfold FullClient.Do
  rw [hp]
  simp only [hi0, callFullHandler]
  rcases hrun with ⟨hdone, hcodes, hleft⟩ | ⟨v, hv⟩
  · rw [hdone]
    simp only []
    refine ⟨by rw [hev2]; exact hent, by rw [hev2]; exact hnrt, by simp, ?_⟩
    intro _
    refine ⟨?_, by rw [hev2, hcodes]⟩
    rw [hleft]
    show Outcome.returned (responseLeft s.ctx.Response A) none = _
    rw [hresp]
  · rw [hv]
    cases v with
    | error e =>
      refine ⟨by show entered s1.events = [0]; rw [hev2]; exact hent,
        by show Event.roundTrip ∉ s1.events; rw [hev2]; exact hnrt, ?_, ?_⟩
      · show Outcome.returned none s1.err ≠ .outOfFuel
        simp
      · intro hrec
        cases hrec
    | other t =>
      refine ⟨by show entered s1.events = [0]; rw [hev2]; exact hent,
        by show Event.roundTrip ∉ s1.events; rw [hev2]; exact hnrt, ?_, ?_⟩
      · show Outcome.returned none s1.err ≠ .outOfFuel
        simp
      · intro hrec
        cases hrec

set_option maxRecDepth 100000 in
/-- C19 at a chain of 128 entries whose first interceptor runs code, calls
`Next` and runs code: the run is that interceptor alone, and the response that
`Client.Do` allocated is returned with a nil error. -/
theorem FullDo_truncated_chain_witness :
    (FullClient.Do (World.plain (.responds ⟨200, false⟩ [] none)) 1
        (FullClient.plain ([.mark 1, .next, .mark 2] :: List.replicate 126 [.next]))
        Request.plain).result = .returned (some Response.empty) none ∧
    (FullClient.Do (World.plain (.responds ⟨200, false⟩ [] none)) 1
        (FullClient.plain ([.mark 1, .next, .mark 2] :: List.replicate 126 [.next]))
        Request.plain).events = [.enter 0, .code 0 1, .code 0 2] :=
  (FullDo_truncated_chain (World.plain (.responds ⟨200, false⟩ [] none)) 1
    (FullClient.plain ([.mark 1, .next, .mark 2] :: List.replicate 126 [.next])) Request.plain
    _ [.mark 1, .next, .mark 2] (List.replicate 126 [.next]) rfl (by decide) (by decide)
    (by decide) rfl).2.2.2 (by decide)

set_option maxRecDepth 100000 in
/-- C19 fails as stated: in a chain of 128 entries whose first interceptor
calls `Next` and then sets `c.Response` to nil, without a panic, `Client.Do`
returns a nil response with a nil error. -/
theorem FullDo_truncated_chain_nil_response :
    (¬ ∃ resp, (FullClient.Do (World.plain (.responds ⟨200, false⟩ [] none)) 128
        (FullClient.plain ([.next, .setResponse none] :: List.replicate 126 [.next]))
        Request.plain).result = .returned (some resp) none) ∧
    FullClient.Do (World.plain (.responds ⟨200, false⟩ [] none)) 128
        (FullClient.plain ([.next, .setResponse none] :: List.replicate 126 [.next]))
        Request.plain =
      { result := .returned none none, recovered := none, events := [.enter 0],
        cursor := [0, 1] } := by
  have h : FullClient.Do (World.plain (.responds ⟨200, false⟩ [] none)) 128
        (FullClient.plain ([.next, .setResponse none] :: List.replicate 126 [.next]))
        Request.plain =
      { result := .returned none none, recovered := none, events := [.enter 0],
        cursor := [0, 1] } := by decide
  refine ⟨?_, h⟩
  rintro ⟨resp, hr⟩
  rw [h] at hr
  cases hr

/-! ## Interceptors in general: a handler entered twice -/

set_option maxRecDepth 100000 in
/-- C18: a chain of two entries whose interceptor calls `Next` 254 times, each
call inside a function with a deferred `recover()`. The first call runs the
terminal step; the calls up to the 125th bring the cursor to 127; the next 128
calls wrap it to -128 and raise it to -1, each one panicking on the index and
being recovered; the 254th call brings it to 0 and enters `handlers[0]` again,
which starts over: the run is cut here at two and at three nested calls of
`Next`. With 253 calls the handlers are entered once each and the call returns.
When the interceptor sets `c.HttpRequest` to nil before its 254th call, the
second run of the terminal step panics in `client.Do`, the second run of the
interceptor ends with the cursor at -2, and `Client.Do` returns a response and
a nil error, having entered both handlers twice. -/
theorem FullDo_reenters_first_handler :
    entered (FullClient.Do (World.plain (.responds ⟨200, false⟩ [] none)) 2
        (FullClient.plain [List.replicate 254 .nextRecovered]) Request.plain).events =
      [0, 1, 0, 1] ∧
    (FullClient.Do (World.plain (.responds ⟨200, false⟩ [] none)) 2
        (FullClient.plain [List.replicate 254 .nextRecovered]) Request.plain).events =
      [.enter 0, .enter 1, .roundTrip, .readAll, .closeBody,
       .enter 0, .enter 1, .roundTrip, .readAll, .closeBody] ∧
    (FullClient.Do (World.plain (.responds ⟨200, false⟩ [] none)) 2
        (FullClient.plain [List.replicate 254 .nextRecovered]) Request.plain).cursor.drop 250 =
      [-6, -5, -4, -3, -2, -1, 0, 1] ∧
    ((FullClient.Do (World.plain (.responds ⟨200, false⟩ [] none)) 2
        (FullClient.plain [List.replicate 254 .nextRecovered]) Request.plain).cursor.drop 126).take 3 =
      [126, 127, -128] ∧
    entered (FullClient.Do (World.plain (.responds ⟨200, false⟩ [] none)) 3
        (FullClient.plain [List.replicate 254 .nextRecovered]) Request.plain).events =
      [0, 1, 0, 1, 0, 1] ∧
    entered (FullClient.Do (World.plain (.responds ⟨200, false⟩ [] none)) 128
        (FullClient.plain [List.replicate 253 .nextRecovered]) Request.plain).events =
      [0, 1] ∧
    (FullClient.Do (World.plain (.responds ⟨200, false⟩ [] none)) 128
        (FullClient.plain
          [List.replicate 253 .nextRecovered ++ [.setHttpRequest none, .nextRecovered]])
        Request.plain).events =
      [.enter 0, .enter 1, .roundTrip, .readAll, .closeBody, .enter 0, .enter 1, .roundTrip] ∧
    (FullClient.Do (World.plain (.responds ⟨200, false⟩ [] none)) 128
        (FullClient.plain
          [List.replicate 253 .nextRecovered ++ [.setHttpRequest none, .nextRecovered]])
        Request.plain).recovered = none ∧
    ∃ resp, (FullClient.Do (World.plain (.responds ⟨200, false⟩ [] none)) 128
        (FullClient.plain
          [List.replicate 253 .nextRecovered ++ [.setHttpRequest none, .nextRecovered]])
        Request.plain).result = .returned (some resp) none :=
  ⟨by decide, by decide, by decide, by decide, by decide, by decide, by decide, by decide,
    _, rfl⟩

/-! ## The two descriptions of interceptors agree -/

theorem runActs_agrees (self : Nat) (callNext : CallState → Exec)
    (callFull : FullState → FullExec)
    (hNext : ∀ s, Agrees (callNext s) (callFull s.toFull)) :
    ∀ (body : List Stmt) (s : CallState),
      Agrees (runStmts self callNext body s)
        (runActs self callFull (body.map Stmt.toAct) s.toFull) := by
  intro body
  induction body with
  | nil => intro s; exact rfl
  | cons st rest ih =>
    intro s
    cases st with
    | mark tag => exact ih (s.emit (.code self tag))
    | next =>
      have h := hNext s
      simp only [List.map_cons, Stmt.toAct, runStmts, runActs]
      cases hr : callNext s with
      | done s1 =>
        rw [hr] at h
        cases hf : callFull s.toFull with
        | done t => rw [hf] at h; cases h; exact ih s1
        | panicked v t => rw [hf] at h; exact h.elim
        | cut t => rw [hf] at h; exact h.elim
      | panicked v s1 =>
        rw [hr] at h
        cases hf : callFull s.toFull with
        | done t => rw [hf] at h; exact h.elim
        | panicked v1 t => rw [hf] at h; exact h
        | cut t => rw [hf] at h; exact h.elim
      | outOfFuel =>
        rw [hr] at h
        cases hf : callFull s.toFull with
        | done t => rw [hf] at h; exact h.elim
        | panicked v1 t => rw [hf] at h; exact h.elim
        | cut t => trivial
    | fault v => exact ⟨rfl, rfl⟩

theorem terminalStep_agrees (w : World) (client : HttpClient) (callNext : CallState → Exec)
    (callFull : FullState → FullExec)
    (hNext : ∀ s, Agrees (callNext s) (callFull s.toFull)) (s : CallState) :
    Agrees (terminalStep w client callNext s) (fullTerminalStep w client callFull s.toFull) := by
  unfold terminalStep fullTerminalStep
  have hq : (s.toFull.emit .roundTrip).ctx.HttpRequest = (s.emit .roundTrip).ctx.HttpRequest :=
    rfl
  simp only [hq]
  cases hreq : (s.emit .roundTrip).ctx.HttpRequest with
  | none => exact ⟨rfl, rfl⟩
  | some httpReq =>
    simp only []
    cases hrt : w.clientDo client httpReq with
    | panics v => exact ⟨rfl, rfl⟩
    | fails resp e =>
      have hresp : (s.toFull.emit .roundTrip).ctx.Response = some s.ctx.Response := rfl
      simp only [hresp]
      exact hNext _
    | responds resp data readErr =>
      have hresp : (s.toFull.emit .roundTrip).ctx.Response = some s.ctx.Response := rfl
      simp only [hresp]
      cases readErr with
      | none => exact hNext _
      | some e => exact hNext _

theorem callHandler_agrees (w : World) (self : Nat) (callNext : CallState → Exec)
    (callFull : FullState → FullExec)
    (hNext : ∀ s, Agrees (callNext s) (callFull s.toFull)) (h : HandlerFn) (s : CallState) :
    Agrees (callHandler w callNext self h s)
      (callFullHandler w callFull self h.toFull s.toFull) := by
  cases h with
  | user body => exact runActs_agrees self callNext callFull hNext body (s.emit (.enter self))
  | terminal client =>
    exact terminalStep_agrees w client callNext callFull hNext (s.emit (.enter self))

theorem indexFullHandlers_map (hs : List HandlerFn) (i : Int) :
    indexFullHandlers (hs.map HandlerFn.toFull) i =
      (indexHandlers hs i).map HandlerFn.toFull := by
  unfold indexFullHandlers indexHandlers
  by_cases h : i < 0
  · simp [h]
  · simp [h, List.get?_eq_getElem?, List.getElem?_map]

/-- A call of `Next` gives the same result in the two descriptions. -/
theorem Next_agrees (w : World) :
    ∀ (fuel : Nat) (s : CallState),
      Agrees (Context.Next w fuel s) (FullContext.Next w fuel s.toFull) := by
  intro fuel
  induction fuel with
  | zero => intro s; trivial
  | succ f ih =>
    intro s
    have hinc : s.toFull.incIndex = s.incIndex.toFull := rfl
    have hlen : s.incIndex.toFull.ctx.handlers.length = s.incIndex.ctx.handlers.length := by
      show (s.incIndex.ctx.handlers.map HandlerFn.toFull).length = _
      rw [List.length_map]
    have hidx : s.incIndex.toFull.ctx.index = s.incIndex.ctx.index := rfl
    have hhs : s.incIndex.toFull.ctx.handlers = s.incIndex.ctx.handlers.map HandlerFn.toFull :=
      rfl
    rw [Context.Next, FullContext.Next]
    simp only [hinc, hlen, hidx]
    by_cases hgt : wrapInt8 s.incIndex.ctx.handlers.length > s.incIndex.ctx.index
    · rw [if_pos hgt, if_pos hgt, hhs, indexFullHandlers_map]
      cases hih : indexHandlers s.incIndex.ctx.handlers s.incIndex.ctx.index with
      | none =>
        simp only [Option.map_none', List.length_map]
        exact ⟨rfl, rfl⟩
      | some hd =>
        simp only [Option.map_some']
        have h := callHandler_agrees w s.incIndex.ctx.index.toNat (Context.Next w f)
          (FullContext.Next w f) ih hd s.incIndex
        cases hr : callHandler w (Context.Next w f) s.incIndex.ctx.index.toNat hd s.incIndex with
        | done s1 =>
          rw [hr] at h
          cases hf : callFullHandler w (FullContext.Next w f) s.incIndex.ctx.index.toNat
              hd.toFull s.incIndex.toFull with
          | done t => rw [hf] at h; cases h; exact rfl
          | panicked v t => rw [hf] at h; exact h.elim
          | cut t => rw [hf] at h; exact h.elim
        | panicked v s1 =>
          rw [hr] at h
          cases hf : callFullHandler w (FullContext.Next w f) s.incIndex.ctx.index.toNat
              hd.toFull s.incIndex.toFull with
          | done t => rw [hf] at h; exact h.elim
          | panicked v1 t => rw [hf] at h; exact h
          | cut t => rw [hf] at h; exact h.elim
        | outOfFuel =>
          rw [hr] at h
          cases hf : callFullHandler w (FullContext.Next w f) s.incIndex.ctx.index.toNat
              hd.toFull s.incIndex.toFull with
          | done t => rw [hf] at h; exact h.elim
          | panicked v1 t => rw [hf] at h; exact h.elim
          | cut t => trivial
    · rw [if_neg hgt, if_neg hgt]
      exact rfl


theorem prepare_agrees (w : World) (c : Client) (req : Request) :
    c.toFull.prepare w req =
      match c.prepare w req with
      | .failed e => .failed e
      | .faulted v => .faulted v
      | .ready s => .ready s.toFull := by
  have hurl : c.toFull.settings.reqUrl (transRequest req) = c.reqUrl (transRequest req) := rfl
  have hhead : ∀ r, transHeader w (transRequest req) r c.toFull.settings =
      transHeader w (transRequest req) r c := fun _ => rfl
  have hopt : transRuntimeOption c.toFull.settings (transRequest req).RuntimeOption =
      transRuntimeOption c (transRequest req).RuntimeOption := rfl
  unfold FullClient.prepare Client.prepare
  simp only [transHandlers_eq, transFullHandlers_eq, hurl, hhead, hopt]
  cases w.newRequestWithContext ((transRequest req).Context.getD .background)
      (transRequest req).Method (c.reqUrl (transRequest req)) (transRequest req).Body with
  | error e => rfl
  | ok httpReq =>
    simp only []
    cases transQuery w (transRequest req) (transHeader w (transRequest req) httpReq c) with
    | error v => rfl
    | ok httpReq2 =>
      simp only [CallState.toFull, Client.toFull, List.nil_append, List.map_append, List.map_map,
        List.map_cons, List.map_nil, HandlerFn.toFull, Response.empty]
      rfl

/-- For interceptors that let every panic pass and leave the context alone, the
two descriptions of `Client.Do` give the same run: what is proved of
`Client.Do` above holds of `FullClient.Do` on such interceptors. -/
theorem Do_agrees (w : World) (c : Client) (req : Request) :
    c.toFull.Do w chainDepth req = c.Do w req := by
  have hne := doBody_ne_outOfFuel w c req
  unfold Client.doBody at hne
  unfold FullClient.Do Client.Do Client.doBody
  rw [prepare_agrees]
  cases hp : c.prepare w req with
  | failed e => rfl
  | faulted v => cases v <;> rfl
  | ready s =>
    rw [hp] at hne
    simp only [] at hne ⊢
    obtain ⟨hh, _, _, hev, hcur⟩ := prepare_ready hp
    have hfull : indexFullHandlers s.toFull.ctx.handlers 0 =
        (indexHandlers s.ctx.handlers 0).map HandlerFn.toFull :=
      indexFullHandlers_map s.ctx.handlers 0
    rw [hfull]
    cases hi : indexHandlers s.ctx.handlers 0 with
    | none =>
      simp only [Option.map_none']
      have hlen : s.toFull.ctx.handlers.length = s.ctx.handlers.length := by
        show (s.ctx.handlers.map HandlerFn.toFull).length = _
        rw [List.length_map]
      rw [hlen]
      show DoRun.mk _ _ s.events s.cursor = DoRun.mk _ _ [] [0]
      rw [hev, hcur]
      rfl
    | some h =>
      rw [hi] at hne
      simp only [Option.map_some'] at hne ⊢
      have hag := callHandler_agrees w 0 (Context.Next w chainDepth)
        (FullContext.Next w chainDepth) (Next_agrees w chainDepth) h s
      cases hr : callHandler w (Context.Next w chainDepth) 0 h s with
      | done s1 =>
        rw [hr] at hag
        cases hf : callFullHandler w (FullContext.Next w chainDepth) 0 h.toFull s.toFull with
        | done t => rw [hf] at hag; cases hag; rfl
        | panicked v t => rw [hf] at hag; exact hag.elim
        | cut t => rw [hf] at hag; exact hag.elim
      | panicked v s1 =>
        rw [hr] at hag
        cases hf : callFullHandler w (FullContext.Next w chainDepth) 0 h.toFull s.toFull with
        | done t => rw [hf] at hag; exact hag.elim
        | panicked v1 t =>
          rw [hf] at hag
          obtain ⟨hv, ht⟩ := hag
          subst hv ht
          cases v1 <;> rfl
        | cut t => rw [hf] at hag; exact hag.elim
      | outOfFuel =>
        rw [hr] at hne
        exact absurd rfl hne

end Httpgo
